import Mathlib

/-! Cahn-Hilliard lattice: embedding of `CHLattice.cpp` and of the driver loop of `main.cpp`.

Conventions of the embedding.

* `double` values are exact rationals (`ℚ`): the formulas are studied in exact arithmetic. The
  stencil formulas of the source divide by `pow(m_dx, 2)` and by `2*m_dx`; for `m_dx = 0` the
  source's division gives a non-finite double, which `ℚ` does not have, and the division of the
  embedding is that of `ℚ`. Every statement below on the value such a formula returns is
  therefore made for `m_dx ≠ 0`, where the two agree.
* `int` coordinates are mathematical integers (`Int`); the C++ remainder `%` truncates
  towards zero and is `Int.tmod`. The sums `x + m_xRange`, `y + m_yRange` and the product
  `xRange*yRange` of the source are 32-bit; the embedding takes them over `Int`. A statement
  below that ranges over arbitrary coordinates or dimensions is made where these sums and
  products are representable (`IntRange`), where the two agree.
* `std::vector<double>` is `List ℚ`. An access `m_data[k]` outside `[0, size)` and a remainder
  by zero have no defined result in C++: every operation that may perform one returns `Option`,
  with `none` standing for "no defined result".
* Lattice objects are passed by reference in the source, so they live in a `Store` addressed by
  `Ref`; `update` and the driver loop are store transformers.
-/

namespace CahnHilliard

/-! ## Data model -/

/-- Data members of `class CHLattice` (CHLattice.hpp, lines 24-43). -/
structure CHLattice where
  m_xRange : Int
  m_yRange : Int
  m_dx : ℚ
  m_M : ℚ
  m_a : ℚ
  m_k : ℚ
  m_data : List ℚ
  deriving DecidableEq

/-- Read `v[k]` of a `std::vector<double>` with an `int` index; undefined outside the vector. -/
def vecGet (v : List ℚ) (k : Int) : Option ℚ :=
  if 0 ≤ k then v[k.toNat]? else none

/-- Write `v[k] = a` of a `std::vector<double>` with an `int` index; undefined outside the vector. -/
def vecSet (v : List ℚ) (k : Int) (a : ℚ) : Option (List ℚ) :=
  if 0 ≤ k ∧ k.toNat < v.length then some (v.set k.toNat a) else none

/-- C++ `a % b` on `int`: truncated remainder, undefined for `b = 0`. -/
def cRem (a b : Int) : Option Int :=
  if b = 0 then none else some (Int.tmod a b)

/-- Loop `for (int i = from; i < from + n; ++i) body(i)`, with `n` iterations left. -/
def forFrom {σ : Type} (body : Int → σ → Option σ) (i : Int) : Nat → σ → Option σ
  | 0, s => some s
  | n + 1, s => (body i s).bind (forFrom body (i + 1) n)

/-- Loop `for (int i = 0; i < n; ++i) body(i)`. -/
def forUpTo {σ : Type} (n : Int) (body : Int → σ → Option σ) (s : σ) : Option σ :=
  forFrom body 0 n.toNat s

/-- Loop `for (int j = n - 1; j >= 0; --j) body(j)`, with `n` iterations left. -/
def forDown {σ : Type} (body : Int → σ → Option σ) : Nat → σ → Option σ
  | 0, s => some s
  | n + 1, s => (body n s).bind (forDown body n)

/-- Loop `for (int j = n - 1; j >= 0; --j) body(j)`. -/
def forDownFrom {σ : Type} (n : Int) (body : Int → σ → Option σ) (s : σ) : Option σ :=
  forDown body n.toNat s

namespace CHLattice

/-- The lattice `L` with its field `m_data` replaced by `d`, every other member kept. -/
def withData (L : CHLattice) (d : List ℚ) : CHLattice :=
  { L with m_data := d }

/-- Constructor `CHLattice::CHLattice` (CHLattice.cpp, lines 4-15): the field is
`m_data(xRange*yRange, 0.0)`. The element count is converted to an unsigned size, so a negative
product requests more elements than a vector can hold and the construction throws. The product
is taken over `Int`: this is the source's `int` product when `xRange*yRange` is representable
in 32 bits (`IntRange`), and statements on arbitrary dimensions assume so. -/
def construct (xRange yRange : Int) (m a k dx : ℚ) : Option CHLattice :=
  if xRange * yRange < 0 then none
  else some
    { m_xRange := xRange, m_yRange := yRange, m_dx := dx, m_M := m, m_a := a, m_k := k,
      m_data := List.replicate (xRange * yRange).toNat 0 }

/-- Storage index computed by both overloads of `operator()` (CHLattice.cpp, lines 103-106 and
114-117): `x = (x + m_xRange) % m_xRange; y = (y + m_yRange) % m_yRange;` then
`x + y * m_xRange`. The sums and the product are taken over `Int`: they are the source's `int`
operations when `x + m_xRange`, `y + m_yRange` and `m_xRange * m_yRange` are representable in
32 bits (`IntRange`), and statements on arbitrary coordinates assume so. -/
def storageIndex (L : CHLattice) (x y : Int) : Option Int := do
  let x ← cRem (x + L.m_xRange) L.m_xRange
  let y ← cRem (y + L.m_yRange) L.m_yRange
  pure (x + y * L.m_xRange)

/-- Read access `operator()(x, y) const` (CHLattice.cpp, lines 110-119); the spec calls it
`siteValue`. -/
def siteValue (L : CHLattice) (x y : Int) : Option ℚ := do
  let k ← L.storageIndex x y
  vecGet L.m_data k

/-- Assignment through the reference returned by the non-const `operator()(x, y)`
(CHLattice.cpp, lines 99-108): `lattice(x, y) = v`. -/
def assignSite (L : CHLattice) (x y : Int) (v : ℚ) : Option CHLattice := do
  let k ← L.storageIndex x y
  let d ← vecSet L.m_data k v
  pure (L.withData d)

/-- Method `CHLattice::chemicalPotential` (CHLattice.cpp, lines 28-35). The division by
`pow(m_dx, 2)` is that of `ℚ`: it is the source's for `m_dx ≠ 0`; for `m_dx = 0` the source
returns a non-finite double and statements on the value returned exclude that case. -/
def chemicalPotential (L : CHLattice) (i j : Int) : Option ℚ := do
  let c ← L.siteValue i j
  let r ← L.siteValue (i + 1) j
  let l ← L.siteValue (i - 1) j
  let u ← L.siteValue i (j + 1)
  let d ← L.siteValue i (j - 1)
  pure (-L.m_a * c + L.m_a * c ^ 3 - L.m_k / (L.m_dx ^ 2) * (r + l + u + d - 4 * c))

/-- Method `CHLattice::freeEnergy(int, int)` (CHLattice.cpp, lines 38-44). The divisions by
`2*m_dx` are those of `ℚ`: they are the source's for `m_dx ≠ 0`; for `m_dx = 0` the source
returns a non-finite double and statements on the value returned exclude that case. -/
def freeEnergy (L : CHLattice) (i j : Int) : Option ℚ := do
  let r ← L.siteValue (i + 1) j
  let l ← L.siteValue (i - 1) j
  let u ← L.siteValue i (j + 1)
  let d ← L.siteValue i (j - 1)
  let gradSquaredTerm := ((r - l) / (2 * L.m_dx)) ^ 2 + ((u - d) / (2 * L.m_dx)) ^ 2
  let c ← L.siteValue i j
  pure (-L.m_a / 2 * c ^ 2 + L.m_a / 4 * c ^ 4 + L.m_k / 2 * gradSquaredTerm)

/-- Method `CHLattice::nextValue` (CHLattice.cpp, lines 62-67). The division by `pow(m_dx, 2)`
is that of `ℚ`: it is the source's for `m_dx ≠ 0`; for `m_dx = 0` the source returns a
non-finite double and statements on the value returned exclude that case. -/
def nextValue (L : CHLattice) (i j : Int) (dt : ℚ) : Option ℚ := do
  let c ← L.siteValue i j
  let r ← L.chemicalPotential (i + 1) j
  let l ← L.chemicalPotential (i - 1) j
  let u ← L.chemicalPotential i (j + 1)
  let d ← L.chemicalPotential i (j - 1)
  let m ← L.chemicalPotential i j
  pure (c + L.m_M * dt / (L.m_dx ^ 2) * (r + l + u + d - 4 * m))

/-- Modelled from the spec: the no-argument `CHLattice::freeEnergy()` is declared in
CHLattice.hpp (lines 88-92) and called by `main`, but its body is not part of the sources. The
spec calls it `totalFreeEnergy()`: the sum of the free-energy density `freeEnergy(x, y)` over all
sites, accumulated here in the site order of `update`. -/
def totalFreeEnergy (L : CHLattice) : Option ℚ :=
  forUpTo L.m_xRange
    (fun i acc => forUpTo L.m_yRange
      (fun j acc => do
        let f ← L.freeEnergy i j
        pure (acc + f)) acc) 0

end CHLattice

/-! ## Random source and initialisation -/

/-- State of a `std::default_random_engine`, seen through the canonical uniform variates in
`[0, 1)` it yields: `variates n` is the `n`-th variate, `used` counts those consumed. -/
structure Generator where
  variates : Nat → ℚ
  used : Nat

/-- One draw `distribution(generator)` of a `std::uniform_real_distribution<double>(a, b)`:
the next canonical variate scaled onto `[a, b)`; the engine advances. -/
def uniformRealDistribution (a b : ℚ) (g : Generator) : ℚ × Generator :=
  (a + (b - a) * g.variates g.used, { g with used := g.used + 1 })

/-- Loop `for (auto &phi : m_data) phi = initialValue + distribution(generator);` of
`CHLattice::initialise` (CHLattice.cpp, lines 19-24), the distribution being the function-local
`static std::uniform_real_distribution<double> distribution(-0.01, 0.01)`. -/
def initialiseLoop (initialValue : ℚ) : List ℚ → Generator → List ℚ × Generator
  | [], g => ([], g)
  | _ :: rest, g =>
    let (u, g1) := uniformRealDistribution (-1 / 100) (1 / 100) g
    let (rest1, g2) := initialiseLoop initialValue rest g1
    ((initialValue + u) :: rest1, g2)

/-- Method `CHLattice::initialise` (CHLattice.cpp, lines 17-25). The header declares it and
`main` calls it with the three arguments `(initialValue, noise, generator)`; the body in
CHLattice.cpp has no use for `noise`. The engine is taken by reference, so its new state is
returned with the lattice. -/
def CHLattice.initialise (L : CHLattice) (initialValue : ℚ) (_noise : ℚ) (generator : Generator) :
    CHLattice × Generator :=
  let (d, g) := initialiseLoop initialValue L.m_data generator
  (L.withData d, g)

/-! ## The sweep `update` -/

/-- Name of a lattice object. -/
abbrev Ref := Nat

/-- The lattice objects alive in the program, by name. -/
abbrev Store := Ref → CHLattice

/-- Statement `updateLattice(i,j) = currentLattice.nextValue(i, j, dt);` (CHLattice.cpp,
line 76) on the store: the right-hand side is read from the object named `currentLattice` as it
is at that moment, the write goes to the object named `updateLattice`. -/
def updateSite (currentLattice updateLattice : Ref) (dt : ℚ) (i j : Int) (st : Store) :
    Option Store := do
  let v ← (st currentLattice).nextValue i j dt
  let d ← (st updateLattice).assignSite i j v
  pure (Function.update st updateLattice d)

/-- Friend function `update` (CHLattice.cpp, lines 70-80). -/
def update (currentLattice updateLattice : Ref) (dt : ℚ) (st : Store) : Option Store :=
  forUpTo (st currentLattice).m_xRange
    (fun i st => forUpTo (st currentLattice).m_yRange
      (fun j st => updateSite currentLattice updateLattice dt i j st) st) st

/-! ## Serialisation -/

/-- What `operator<<` sends to the stream: a formatted value, the character `' '` or the
character `'\n'`. The decimal rendering of a value is outside the model. -/
inductive OutItem where
  | value (v : ℚ)
  | space
  | newline
  deriving DecidableEq

/-- Inner loop of `operator<<` (CHLattice.cpp, lines 87-92): row `j`, then `'\n'`. -/
def streamRow (L : CHLattice) (j : Int) (out : List OutItem) : Option (List OutItem) := do
  let out1 ← forUpTo L.m_xRange
    (fun i out => do
      let v ← L.siteValue i j
      pure (out ++ [OutItem.value v, OutItem.space])) out
  pure (out1 ++ [OutItem.newline])

/-- Function `operator<<(std::ostream&, const CHLattice&)` (CHLattice.cpp, lines 83-97): the
items appended to `out`. -/
def streamLattice (L : CHLattice) (out : List OutItem) : Option (List OutItem) :=
  forDownFrom L.m_yRange (fun j out => streamRow L j out) out

/-! ## The driver loop of `main` -/

/-- Object `currentLattice` of `main`. -/
def currentLattice : Ref := 0

/-- Object `updatedLattice` of `main`. -/
def updatedLattice : Ref := 1

/-- Call `std::swap(a, b)` on two lattice objects: their contents are exchanged. -/
def swapLattices (a b : Ref) (st : Store) : Store :=
  Function.update (Function.update st a (st b)) b (st a)

/-- State of the simulation section of `main`: the lattice objects, the step variable `t`, the
successive writes to `lattice.dat` (each one after the first is made from the top of the file)
and the lines `t F` written to `freeEnergy.dat`. -/
structure Driver where
  store : Store
  t : Int
  latticeOutput : List (List OutItem)
  freeEnergy : List (Int × ℚ)

/-- Body of the `while` loop of `main` (main.cpp, lines 159-183). -/
def loopBody (animate : Bool) (timeStep : ℚ) (d : Driver) : Option Driver := do
  let st1 ← update currentLattice updatedLattice timeStep d.store
  let d1 ←
    if animate = true ∧ 0 = Int.tmod d.t 1000 then do
      let frame ← streamLattice (st1 updatedLattice) []
      pure { d with store := st1, latticeOutput := d.latticeOutput ++ [frame] }
    else do
      let f ← (st1 updatedLattice).totalFreeEnergy
      pure { d with store := st1, freeEnergy := d.freeEnergy ++ [(d.t, f)] }
  pure { d1 with store := swapLattices currentLattice updatedLattice d1.store, t := d1.t + 1 }

/-- Loop `while (t < totalSteps) { ... }` of `main` (main.cpp, lines 158-183), run with a bound
`fuel` on the number of iterations; `none` also when the bound is reached with the condition
still true. -/
def mainLoop (animate : Bool) (timeStep : ℚ) (totalSteps : Int) : Nat → Driver → Option Driver
  | 0, d => if d.t < totalSteps then none else some d
  | fuel + 1, d =>
    if d.t < totalSteps then
      (loopBody animate timeStep d).bind (mainLoop animate timeStep totalSteps fuel)
    else some d

/-- Simulation section of `main` up to the loop (main.cpp, lines 146-157): construction and
initialisation of `currentLattice`, its copy `updatedLattice`, the first write to `lattice.dat`
and the line for `t = 0` of `freeEnergy.dat`. -/
def simulationStart (xRange yRange : Int) (mConstant aConstant kConstant spaceStep : ℚ)
    (initialValue noise : ℚ) (generator : Generator) : Option Driver := do
  let l0 ← CHLattice.construct xRange yRange mConstant aConstant kConstant spaceStep
  let cur := (l0.initialise initialValue noise generator).1
  let st : Store := fun _ => cur
  let frame ← streamLattice (st currentLattice) []
  let f ← (st updatedLattice).totalFreeEnergy
  pure { store := st, t := 0, latticeOutput := [frame], freeEnergy := [(0, f)] }

/-- Periodically wrapped site value of the spec: the cell at column `x mod W` and row
`y mod H` (non-negative remainders), whatever the integers `x`, `y`. -/
def phi (L : CHLattice) (x y : Int) : ℚ :=
  L.m_data.getD (x % L.m_xRange + y % L.m_yRange * L.m_xRange).toNat 0

/-- Chemical potential of the spec, section 4.1, over the periodically wrapped field. -/
def mu (L : CHLattice) (x y : Int) : ℚ :=
  -L.m_a * phi L x y + L.m_a * phi L x y ^ 3
    - L.m_k / L.m_dx ^ 2
      * (phi L (x + 1) y + phi L (x - 1) y + phi L x (y + 1) + phi L x (y - 1) - 4 * phi L x y)

/-- Free-energy density of the spec, section 4.1, over the periodically wrapped field. -/
def freeEnergyDensity (L : CHLattice) (x y : Int) : ℚ :=
  -(L.m_a / 2) * phi L x y ^ 2 + L.m_a / 4 * phi L x y ^ 4
    + L.m_k / 2
      * (((phi L (x + 1) y - phi L (x - 1) y) / (2 * L.m_dx)) ^ 2
        + ((phi L x (y + 1) - phi L x (y - 1)) / (2 * L.m_dx)) ^ 2)

/-- Explicit-Euler update of the spec, section 4.1, over the periodically wrapped field. -/
def eulerNext (L : CHLattice) (x y : Int) (dt : ℚ) : ℚ :=
  phi L x y + L.m_M * dt / L.m_dx ^ 2
    * (mu L (x + 1) y + mu L (x - 1) y + mu L x (y + 1) + mu L x (y - 1) - 4 * mu L x y)

/-- Lattice invariant of the spec's data model: positive dimensions and a field of `W*H`
values. -/
def WellFormed (L : CHLattice) : Prop :=
  1 ≤ L.m_xRange ∧ 1 ≤ L.m_yRange ∧ (L.m_data.length : Int) = L.m_xRange * L.m_yRange

instance (L : CHLattice) : Decidable (WellFormed L) := by
  unfold WellFormed; infer_instance

/-- A 2 by 2 lattice with four different site values, used as a concrete input. -/
def sampleLattice : CHLattice :=
  { m_xRange := 2, m_yRange := 2, m_dx := 1, m_M := 1 / 10, m_a := 1 / 10, m_k := 1 / 10,
    m_data := [1, 2, 3, 4] }

/-- A lattice of one site holding 0. -/
def oneSiteLattice : CHLattice :=
  { m_xRange := 1, m_yRange := 1, m_dx := 1, m_M := 1 / 10, m_a := 1 / 10, m_k := 1 / 10,
    m_data := [0] }

/-- A random source whose canonical variates are all `3/4`. -/
def sampleGenerator : Generator :=
  { variates := fun _ => 3 / 4, used := 0 }

/-- The 4 by 4 lattice of the spec's energy-output scenario: `M = a = k = 0.1`, `dx = 1`, every
site 0. -/
def zeroLattice : CHLattice :=
  { m_xRange := 4, m_yRange := 4, m_dx := 1, m_M := 1 / 10, m_a := 1 / 10, m_k := 1 / 10,
    m_data := List.replicate 16 0 }

/-- Effective index of the spec's data model, `((x mod W)+W) mod W`, with the remainder of the
implementation language. -/
def effectiveIndex (x W : Int) : Int :=
  Int.tmod (Int.tmod x W + W) W

/-- Coordinates the single added period of `operator()` brings back into range: those not
below `-W`, and the multiples of `W`. -/
def Reaches (W x : Int) : Prop :=
  -W ≤ x ∨ W ∣ x

instance (W x : Int) : Decidable (Reaches W x) := by
  unfold Reaches; infer_instance

/-! ## Invariants used in the proofs -/

/-- Invariant of the two loops of `update` when the outer loop is at column `i` and the inner
one at row `j`: only the field of the destination has changed, it has kept its length, and the
sites already visited hold the Euler update of the source lattice. -/
def SweepInv (st : Store) (cur dst : Ref) (dt : ℚ) (i j : Int) (st1 : Store) : Prop :=
  ∃ d : List ℚ, st1 = Function.update st dst ((st dst).withData d) ∧
    d.length = (st dst).m_data.length ∧
    ∀ x y : Int, 0 ≤ x → x < (st cur).m_xRange → 0 ≤ y → y < (st cur).m_yRange →
      (x < i ∨ (x = i ∧ y < j)) →
      d[(x + y * (st cur).m_xRange).toNat]? = some (eulerNext (st cur) x y dt)

/-- The field `update` leaves in the destination: the Euler update of every site of `L`, in
storage order. -/
def sweepData (L : CHLattice) (dt : ℚ) : List ℚ :=
  (List.range (L.m_xRange * L.m_yRange).toNat).map
    (fun (k : Nat) => eulerNext L ((k : Int) % L.m_xRange) ((k : Int) / L.m_xRange) dt)

/-- Same dimensions and constants. -/
def SameShape (U L : CHLattice) : Prop :=
  U.m_xRange = L.m_xRange ∧ U.m_yRange = L.m_yRange ∧ U.m_dx = L.m_dx ∧ U.m_M = L.m_M ∧
    U.m_a = L.m_a ∧ U.m_k = L.m_k

/-- Invariant of the driver loop: `currentLattice` is `L`, well formed, and `updatedLattice` is a
well-formed lattice of the same dimensions and constants. -/
def DriverInv (d : Driver) (L : CHLattice) : Prop :=
  d.store currentLattice = L ∧ WellFormed L ∧ WellFormed (d.store updatedLattice) ∧
    SameShape (d.store updatedLattice) L

/-- The lattice `CHLattice::CHLattice` builds when the allocation of its field succeeds. -/
def constructed (xRange yRange : Int) (m a k dx : ℚ) : CHLattice :=
  { m_xRange := xRange, m_yRange := yRange, m_dx := dx, m_M := m, m_a := a, m_k := k,
    m_data := List.replicate (xRange * yRange).toNat 0 }

/-- The loop body of `main` executed `n` times in a row. -/
def iterateBody (animate : Bool) (timeStep : ℚ) : Nat → Driver → Option Driver
  | 0, d => some d
  | n + 1, d => (loopBody animate timeStep d).bind (iterateBody animate timeStep n)

/-- Least value of the 32-bit `int` of the source. -/
def INT_MIN : Int := -2147483648

/-- Greatest value of the 32-bit `int` of the source. -/
def INT_MAX : Int := 2147483647

/-- The integer `z` is representable as an `int` of the source. -/
def IntRange (z : Int) : Prop :=
  INT_MIN ≤ z ∧ z ≤ INT_MAX

instance (z : Int) : Decidable (IntRange z) := by
  unfold IntRange; infer_instance

/-- Every `int` operation of the access `operator()(x, y)` on `L` is representable: the
arguments, the sums `x + m_xRange` and `y + m_yRange`, and the size `m_xRange * m_yRange` that
bounds the storage index. -/
def AccessRepresentable (L : CHLattice) (x y : Int) : Prop :=
  IntRange x ∧ IntRange y ∧ IntRange (x + L.m_xRange) ∧ IntRange (y + L.m_yRange) ∧
    IntRange (L.m_xRange * L.m_yRange)

instance (L : CHLattice) (x y : Int) : Decidable (AccessRepresentable L x y) := by
  unfold AccessRepresentable; infer_instance

/-- A lattice like `sampleLattice` with spatial step 2. -/
def coarseLattice : CHLattice :=
  { m_xRange := 2, m_yRange := 2, m_dx := 2, m_M := 1 / 10, m_a := 1 / 10, m_k := 1 / 10,
    m_data := [1, 2, 3, 4] }

/-- A 3 by 1 lattice with spatial step 2 and three different site values. -/
def stripLattice : CHLattice :=
  { m_xRange := 3, m_yRange := 1, m_dx := 2, m_M := 1 / 10, m_a := 1 / 10, m_k := 1 / 10,
    m_data := [1, 2, 4] }

/-- A store whose objects are all copies of `coarseLattice`. -/
def coarseStore : Store := fun _ => coarseLattice

/-! ## Field replacement -/

@[simp] theorem withData_xRange (L : CHLattice) (d : List ℚ) :
    (L.withData d).m_xRange = L.m_xRange := rfl

@[simp] theorem withData_yRange (L : CHLattice) (d : List ℚ) :
    (L.withData d).m_yRange = L.m_yRange := rfl

@[simp] theorem withData_dx (L : CHLattice) (d : List ℚ) : (L.withData d).m_dx = L.m_dx := rfl

@[simp] theorem withData_M (L : CHLattice) (d : List ℚ) : (L.withData d).m_M = L.m_M := rfl

@[simp] theorem withData_a (L : CHLattice) (d : List ℚ) : (L.withData d).m_a = L.m_a := rfl

@[simp] theorem withData_k (L : CHLattice) (d : List ℚ) : (L.withData d).m_k = L.m_k := rfl

@[simp] theorem withData_data (L : CHLattice) (d : List ℚ) : (L.withData d).m_data = d := rfl

@[simp] theorem withData_withData (L : CHLattice) (d e : List ℚ) :
    (L.withData d).withData e = L.withData e := rfl

theorem withData_self (L : CHLattice) : L.withData L.m_data = L := rfl

theorem wellFormed_withData (L : CHLattice) (hL : WellFormed L) (d : List ℚ)
    (hlen : d.length = L.m_data.length) : WellFormed (L.withData d) := by
  refine ⟨hL.1, hL.2.1, ?_⟩
  show (d.length : Int) = _
  rw [hlen]
  exact hL.2.2

/-! ## Index arithmetic -/

theorem neg_lt_tmod (x W : Int) (hW : 1 ≤ W) : -W < Int.tmod x W := by
  rcases Int.le_total 0 x with hx | hx
  · have := Int.tmod_nonneg W hx
    omega
  · have h1 : 0 ≤ Int.tmod (-x) W := Int.tmod_nonneg W (by omega)
    have h2 : Int.tmod (-x) W < W := Int.tmod_lt_of_pos _ (by omega)
    have h3 : Int.tmod x W = -Int.tmod (-x) W := by
      rw [Int.tmod_def, Int.tmod_def, Int.neg_tdiv]
      ring
    omega

theorem tmod_emod_self (x W : Int) : Int.tmod x W % W = x % W := by
  have h := Int.tmod_add_tdiv x W
  conv_rhs => rw [← h]
  simp

theorem effectiveIndex_eq_emod (x W : Int) (hW : 1 ≤ W) : effectiveIndex x W = x % W := by
  unfold effectiveIndex
  have h1 := neg_lt_tmod x W hW
  rw [Int.tmod_eq_emod (by omega) (by omega), Int.add_emod_self, tmod_emod_self]

/-- The wrap of `operator()`, `(x + W) % W`, is the non-negative remainder for the coordinates
it reaches. -/
theorem tmod_add_range (x W : Int) (hW : 1 ≤ W) (hx : Reaches W x) :
    Int.tmod (x + W) W = x % W := by
  rcases hx with hx | hx
  · rw [Int.tmod_eq_emod (by omega) (by omega), Int.add_emod_self]
  · rw [Int.tmod_eq_zero_of_dvd (Dvd.dvd.add hx (dvd_refl W)), Int.emod_eq_zero_of_dvd hx]

/-- For the coordinates `operator()` does not reach the wrap is negative. -/
theorem tmod_add_range_neg (x W : Int) (hx : ¬ Reaches W x) :
    Int.tmod (x + W) W < 0 := by
  unfold Reaches at hx
  push_neg at hx
  have h3 : Int.tmod (x + W) W = -Int.tmod (-(x + W)) W := by
    rw [Int.tmod_def, Int.tmod_def, Int.neg_tdiv]
    ring
  have h1 : 0 ≤ Int.tmod (-(x + W)) W := Int.tmod_nonneg W (by omega)
  have h4 : Int.tmod (-(x + W)) W ≠ 0 := by
    intro h0
    have hd : W ∣ -(x + W) := Int.dvd_of_tmod_eq_zero h0
    have hd2 : W ∣ x + W := (Int.dvd_neg).mp hd
    exact hx.2 ((Int.dvd_add_left (dvd_refl W)).mp hd2)
  omega

theorem cell_index_bounds (W H a b : Int) (ha0 : 0 ≤ a) (haW : a < W) (hb0 : 0 ≤ b)
    (hbH : b < H) : 0 ≤ a + b * W ∧ a + b * W < W * H := by
  constructor
  · have := Int.mul_nonneg hb0 (by omega : (0 : Int) ≤ W)
    omega
  · have h1 : (b + 1) * W ≤ H * W := Int.mul_le_mul_of_nonneg_right (by omega) (by omega)
    have h2 : (b + 1) * W = b * W + W := by ring
    have h3 : H * W = W * H := by ring
    omega

theorem reaches_of_ge_neg_two (W x : Int) (hW : 1 ≤ W) (hx : -2 ≤ x) : Reaches W x := by
  by_cases h : -W ≤ x
  · exact Or.inl h
  · have hW1 : W = 1 := by omega
    exact Or.inr (by rw [hW1]; exact one_dvd x)

/-! ## Site access on a well-formed lattice -/

theorem storageIndex_of_reaches (L : CHLattice) (hL : WellFormed L) (x y : Int)
    (hx : Reaches L.m_xRange x) (hy : Reaches L.m_yRange y) :
    L.storageIndex x y = some (x % L.m_xRange + y % L.m_yRange * L.m_xRange) := by
  obtain ⟨hW, hH, _⟩ := hL
  have hW0 : L.m_xRange ≠ 0 := by omega
  have hH0 : L.m_yRange ≠ 0 := by omega
  simp [CHLattice.storageIndex, cRem, hW0, hH0, tmod_add_range _ _ hW hx,
    tmod_add_range _ _ hH hy]

theorem emod_cell_bounds (L : CHLattice) (hL : WellFormed L) (x y : Int) :
    0 ≤ x % L.m_xRange + y % L.m_yRange * L.m_xRange ∧
      x % L.m_xRange + y % L.m_yRange * L.m_xRange < (L.m_data.length : Int) := by
  obtain ⟨hW, hH, hlen⟩ := hL
  rw [hlen]
  exact cell_index_bounds _ _ _ _ (Int.emod_nonneg _ (by omega)) (Int.emod_lt_of_pos _ (by omega))
    (Int.emod_nonneg _ (by omega)) (Int.emod_lt_of_pos _ (by omega))

theorem vecGet_of_bounds (v : List ℚ) (k : Int) (h0 : 0 ≤ k) (h1 : k < (v.length : Int)) :
    vecGet v k = some (v.getD k.toNat 0) := by
  have hk : k.toNat < v.length := by omega
  simp [vecGet, h0, List.getD_eq_getElem?_getD, List.getElem?_eq_getElem hk]

theorem siteValue_eq_phi (L : CHLattice) (hL : WellFormed L) (x y : Int)
    (hx : Reaches L.m_xRange x) (hy : Reaches L.m_yRange y) :
    L.siteValue x y = some (phi L x y) := by
  have hb := emod_cell_bounds L hL x y
  simp [CHLattice.siteValue, storageIndex_of_reaches L hL x y hx hy, phi,
    vecGet_of_bounds _ _ hb.1 hb.2]

theorem chemicalPotential_eq_mu (L : CHLattice) (hL : WellFormed L) (x y : Int)
    (hx : -1 ≤ x) (hy : -1 ≤ y) :
    L.chemicalPotential x y = some (mu L x y) := by
  have hW := hL.1
  have hH := hL.2.1
  have r := fun (a b : Int) (ha : -2 ≤ a) (hb : -2 ≤ b) =>
    siteValue_eq_phi L hL a b (reaches_of_ge_neg_two _ _ hW ha) (reaches_of_ge_neg_two _ _ hH hb)
  simp [CHLattice.chemicalPotential, mu, r x y (by omega) (by omega),
    r (x + 1) y (by omega) (by omega), r (x - 1) y (by omega) (by omega),
    r x (y + 1) (by omega) (by omega), r x (y - 1) (by omega) (by omega)]

theorem freeEnergy_eq_density (L : CHLattice) (hL : WellFormed L) (x y : Int)
    (hx : -1 ≤ x) (hy : -1 ≤ y) :
    L.freeEnergy x y = some (freeEnergyDensity L x y) := by
  have hW := hL.1
  have hH := hL.2.1
  have r := fun (a b : Int) (ha : -2 ≤ a) (hb : -2 ≤ b) =>
    siteValue_eq_phi L hL a b (reaches_of_ge_neg_two _ _ hW ha) (reaches_of_ge_neg_two _ _ hH hb)
  simp [CHLattice.freeEnergy, freeEnergyDensity, r x y (by omega) (by omega),
    r (x + 1) y (by omega) (by omega), r (x - 1) y (by omega) (by omega),
    r x (y + 1) (by omega) (by omega), r x (y - 1) (by omega) (by omega)]
  ring

theorem nextValue_eq_eulerNext (L : CHLattice) (hL : WellFormed L) (x y : Int)
    (hx : 0 ≤ x) (hy : 0 ≤ y) (dt : ℚ) :
    L.nextValue x y dt = some (eulerNext L x y dt) := by
  have hW := hL.1
  have hH := hL.2.1
  have r := siteValue_eq_phi L hL x y (reaches_of_ge_neg_two _ _ hW (by omega))
    (reaches_of_ge_neg_two _ _ hH (by omega))
  have c := fun (a b : Int) (ha : -1 ≤ a) (hb : -1 ≤ b) => chemicalPotential_eq_mu L hL a b ha hb
  simp [CHLattice.nextValue, eulerNext, r, c x y (by omega) (by omega),
    c (x + 1) y (by omega) (by omega), c (x - 1) y (by omega) (by omega),
    c x (y + 1) (by omega) (by omega), c x (y - 1) (by omega) (by omega)]

/-! ## Loop invariants -/

theorem forFrom_invariant {σ : Type} (body : Int → σ → Option σ) (Inv : Int → σ → Prop) :
    ∀ (n : Nat) (i : Int) (s : σ),
      (∀ k t, i ≤ k → k < i + n → Inv k t → ∃ t', body k t = some t' ∧ Inv (k + 1) t') →
      Inv i s → ∃ s', forFrom body i n s = some s' ∧ Inv (i + n) s' := by
  intro n
  induction n with
  | zero =>
    intro i s _ h0
    exact ⟨s, rfl, by simpa using h0⟩
  | succ n ih =>
    intro i s hstep h0
    obtain ⟨t, ht, hInv⟩ := hstep i s (le_refl i) (by push_cast; omega) h0
    obtain ⟨s', hs', hfin⟩ := ih (i + 1) t
      (fun k u hk1 hk2 hu => hstep k u (by omega) (by push_cast; omega) hu) hInv
    refine ⟨s', ?_, ?_⟩
    · simp [forFrom, ht, hs']
    · have e : i + ((n + 1 : Nat) : Int) = i + 1 + (n : Int) := by push_cast; ring
      rw [e]
      exact hfin

theorem forUpTo_invariant {σ : Type} (body : Int → σ → Option σ) (Inv : Int → σ → Prop)
    (n : Int) (hn : 0 ≤ n) (s : σ)
    (hstep : ∀ k t, 0 ≤ k → k < n → Inv k t → ∃ t', body k t = some t' ∧ Inv (k + 1) t')
    (h0 : Inv 0 s) : ∃ s', forUpTo n body s = some s' ∧ Inv n s' := by
  have hcast : ((n.toNat : Nat) : Int) = n := Int.toNat_of_nonneg hn
  obtain ⟨s', hs', hfin⟩ := forFrom_invariant body Inv n.toNat 0 s
    (fun k t hk1 hk2 ht => hstep k t hk1 (by omega) ht) h0
  refine ⟨s', hs', ?_⟩
  have e : (0 : Int) + ((n.toNat : Nat) : Int) = n := by omega
  rw [e] at hfin
  exact hfin

theorem cell_index_injective (W x y i j : Int) (hx0 : 0 ≤ x) (hxW : x < W) (hi0 : 0 ≤ i)
    (hiW : i < W) (h : x + y * W = i + j * W) : x = i ∧ y = j := by
  have h1 : (x + y * W) % W = x := by
    rw [Int.add_mul_emod_self, Int.emod_eq_of_lt hx0 hxW]
  have h2 : (i + j * W) % W = i := by
    rw [Int.add_mul_emod_self, Int.emod_eq_of_lt hi0 hiW]
  have hxi : x = i := by rw [← h1, ← h2, h]
  refine ⟨hxi, ?_⟩
  have h3 : y * W = j * W := by omega
  exact Int.eq_of_mul_eq_mul_right (by omega) h3

/-! ## In-range sites -/

theorem storageIndex_in_range (L : CHLattice) (hL : WellFormed L) (x y : Int)
    (hx0 : 0 ≤ x) (hxW : x < L.m_xRange) (hy0 : 0 ≤ y) (hyH : y < L.m_yRange) :
    L.storageIndex x y = some (x + y * L.m_xRange) := by
  rw [storageIndex_of_reaches L hL x y (Or.inl (by omega)) (Or.inl (by omega)),
    Int.emod_eq_of_lt hx0 hxW, Int.emod_eq_of_lt hy0 hyH]

theorem in_range_index_bounds (L : CHLattice) (hL : WellFormed L) (x y : Int)
    (hx0 : 0 ≤ x) (hxW : x < L.m_xRange) (hy0 : 0 ≤ y) (hyH : y < L.m_yRange) :
    0 ≤ x + y * L.m_xRange ∧ (x + y * L.m_xRange).toNat < L.m_data.length := by
  have hb := cell_index_bounds L.m_xRange L.m_yRange x y hx0 hxW hy0 hyH
  have hlen := hL.2.2
  omega

theorem siteValue_in_range (L : CHLattice) (hL : WellFormed L) (x y : Int)
    (hx0 : 0 ≤ x) (hxW : x < L.m_xRange) (hy0 : 0 ≤ y) (hyH : y < L.m_yRange) :
    L.siteValue x y = L.m_data[(x + y * L.m_xRange).toNat]? := by
  have hb := in_range_index_bounds L hL x y hx0 hxW hy0 hyH
  simp [CHLattice.siteValue, storageIndex_in_range L hL x y hx0 hxW hy0 hyH, vecGet, hb.1]

theorem assignSite_in_range (L : CHLattice) (hL : WellFormed L) (x y : Int)
    (hx0 : 0 ≤ x) (hxW : x < L.m_xRange) (hy0 : 0 ≤ y) (hyH : y < L.m_yRange) (v : ℚ) :
    L.assignSite x y v
      = some (L.withData (L.m_data.set (x + y * L.m_xRange).toNat v)) := by
  have hb := in_range_index_bounds L hL x y hx0 hxW hy0 hyH
  simp [CHLattice.assignSite, storageIndex_in_range L hL x y hx0 hxW hy0 hyH, vecSet, hb.1,
    hb.2]

/-! ## The sweep -/

theorem updateSite_step (st : Store) (cur dst : Ref) (dt : ℚ) (hne : cur ≠ dst)
    (hc : WellFormed (st cur)) (hd : WellFormed (st dst))
    (hW : (st dst).m_xRange = (st cur).m_xRange) (hH : (st dst).m_yRange = (st cur).m_yRange)
    (i j : Int) (hi0 : 0 ≤ i) (hiW : i < (st cur).m_xRange) (hj0 : 0 ≤ j)
    (hjH : j < (st cur).m_yRange) (st1 : Store) (h : SweepInv st cur dst dt i j st1) :
    ∃ st2, updateSite cur dst dt i j st1 = some st2 ∧ SweepInv st cur dst dt i (j + 1) st2 := by
  obtain ⟨d, rfl, hlen, hdone⟩ := h
  have hX : WellFormed ((st dst).withData d) := wellFormed_withData _ hd d hlen
  have hcur : Function.update st dst ((st dst).withData d) cur = st cur :=
    Function.update_noteq hne _ _
  have ha := assignSite_in_range _ hX i j hi0 (by simpa [hW] using hiW) hj0
    (by simpa [hH] using hjH) (eulerNext (st cur) i j dt)
  refine ⟨Function.update st dst ((st dst).withData
    (d.set (i + j * (st cur).m_xRange).toNat (eulerNext (st cur) i j dt))), ?_, ?_⟩
  · simp only [withData_withData, withData_data, withData_xRange, hW] at ha
    simp [updateSite, hcur, nextValue_eq_eulerNext _ hc i j hi0 hj0 dt, ha]
  · refine ⟨_, rfl, by simp [hlen], ?_⟩
    intro x y hx0 hxW hy0 hyH hxy
    have hbi := in_range_index_bounds _ hc i j hi0 hiW hj0 hjH
    have hbx := in_range_index_bounds _ hc x y hx0 hxW hy0 hyH
    by_cases hsame : x = i ∧ y = j
    · obtain ⟨rfl, rfl⟩ := hsame
      have hk : (x + y * (st cur).m_xRange).toNat < d.length := by
        rw [hlen]
        have := hd.2.2
        have := hc.2.2
        rw [hW, hH] at *
        omega
      simp [List.getElem?_set, hk]
    · have hne2 : (i + j * (st cur).m_xRange).toNat ≠ (x + y * (st cur).m_xRange).toNat := by
        intro he
        have he2 : x + y * (st cur).m_xRange = i + j * (st cur).m_xRange := by omega
        exact hsame (cell_index_injective _ x y i j hx0 hxW hi0 hiW he2)
      rw [List.getElem?_set, if_neg hne2]
      apply hdone x y hx0 hxW hy0 hyH
      rcases hxy with h1 | ⟨h1, h2⟩
      · exact Or.inl h1
      · refine Or.inr ⟨h1, ?_⟩
        by_contra hcon
        exact hsame ⟨h1, by omega⟩

theorem sweepInv_start (st : Store) (cur dst : Ref) (dt : ℚ) : SweepInv st cur dst dt 0 0 st := by
  refine ⟨(st dst).m_data, ?_, rfl, ?_⟩
  · rw [withData_self, Function.update_eq_self]
  · intro x y hx0 _ hy0 _ h
    omega

theorem sweepInv_next_column (st : Store) (cur dst : Ref) (dt : ℚ) (i : Int) (st1 : Store)
    (h : SweepInv st cur dst dt i (st cur).m_yRange st1) : SweepInv st cur dst dt (i + 1) 0 st1 := by
  obtain ⟨d, hst, hlen, hdone⟩ := h
  refine ⟨d, hst, hlen, ?_⟩
  intro x y hx0 hxW hy0 hyH hxy
  apply hdone x y hx0 hxW hy0 hyH
  omega

theorem update_sweep (st : Store) (cur dst : Ref) (dt : ℚ) (hne : cur ≠ dst)
    (hc : WellFormed (st cur)) (hd : WellFormed (st dst))
    (hW : (st dst).m_xRange = (st cur).m_xRange) (hH : (st dst).m_yRange = (st cur).m_yRange) :
    ∃ st1, update cur dst dt st = some st1 ∧ SweepInv st cur dst dt (st cur).m_xRange 0 st1 := by
  unfold update
  apply forUpTo_invariant _ (fun i s => SweepInv st cur dst dt i 0 s) _ (by have := hc.1; omega)
  · intro i st1 hi0 hiW hInv
    have hcur1 : st1 cur = st cur := by
      obtain ⟨d, rfl, _⟩ := hInv
      exact Function.update_noteq hne _ _
    obtain ⟨st2, h2, hInv2⟩ := forUpTo_invariant
      (fun j s => updateSite cur dst dt i j s) (fun j s => SweepInv st cur dst dt i j s)
      (st cur).m_yRange (by have := hc.2.1; omega) st1
      (fun j s hj0 hjH hs => updateSite_step st cur dst dt hne hc hd hW hH i j hi0 hiW hj0 hjH s hs)
      hInv
    refine ⟨st2, ?_, sweepInv_next_column st cur dst dt i st2 hInv2⟩
    simp only [hcur1]
    exact h2
  · exact sweepInv_start st cur dst dt

theorem update_eq (st : Store) (cur dst : Ref) (dt : ℚ) (hne : cur ≠ dst)
    (hc : WellFormed (st cur)) (hd : WellFormed (st dst))
    (hW : (st dst).m_xRange = (st cur).m_xRange) (hH : (st dst).m_yRange = (st cur).m_yRange) :
    update cur dst dt st
      = some (Function.update st dst ((st dst).withData (sweepData (st cur) dt))) := by
  obtain ⟨st1, hst1, d, rfl, hlen, hdone⟩ := update_sweep st cur dst dt hne hc hd hW hH
  rw [hst1]
  have hlenD : (d.length : Int) = (st cur).m_xRange * (st cur).m_yRange := by
    rw [hlen, hd.2.2, hW, hH]
  have hWpos := hc.1
  have hd_eq : d = sweepData (st cur) dt := by
    apply List.ext_getElem?
    intro k
    by_cases hk : k < d.length
    · have hkI : (k : Int) < (st cur).m_xRange * (st cur).m_yRange := by omega
      have hx0 : 0 ≤ (k : Int) % (st cur).m_xRange := Int.emod_nonneg _ (by omega)
      have hxW : (k : Int) % (st cur).m_xRange < (st cur).m_xRange :=
        Int.emod_lt_of_pos _ (by omega)
      have hy0 : 0 ≤ (k : Int) / (st cur).m_xRange :=
        Int.ediv_nonneg (by omega) (by omega)
      have hyH : (k : Int) / (st cur).m_xRange < (st cur).m_yRange :=
        Int.ediv_lt_of_lt_mul (by omega) (by rw [Int.mul_comm]; exact hkI)
      have hkk : (k : Int) % (st cur).m_xRange
          + (k : Int) / (st cur).m_xRange * (st cur).m_xRange = k := by
        rw [Int.mul_comm]
        exact Int.emod_add_ediv _ _
      have h1 := hdone _ _ hx0 hxW hy0 hyH (Or.inl hxW)
      rw [hkk, Int.toNat_ofNat] at h1
      have hk2 : k < (((st cur).m_xRange * (st cur).m_yRange).toNat) := by omega
      rw [h1]
      simp [sweepData, List.getElem?_map, List.getElem?_range hk2]
    · have hk2 : ¬ k < (((st cur).m_xRange * (st cur).m_yRange).toNat) := by omega
      rw [List.getElem?_eq_none (by omega)]
      symm
      apply List.getElem?_eq_none
      simp [sweepData]
      omega
  rw [hd_eq]

theorem sweepData_length (L : CHLattice) (dt : ℚ) :
    (sweepData L dt).length = (L.m_xRange * L.m_yRange).toNat := by
  simp [sweepData]

theorem sweepData_getElem (L : CHLattice) (dt : ℚ) (x y : Int)
    (hx0 : 0 ≤ x) (hxW : x < L.m_xRange) (hy0 : 0 ≤ y) (hyH : y < L.m_yRange) :
    (sweepData L dt)[(x + y * L.m_xRange).toNat]? = some (eulerNext L x y dt) := by
  have hb := cell_index_bounds L.m_xRange L.m_yRange x y hx0 hxW hy0 hyH
  have hk : (x + y * L.m_xRange).toNat < (L.m_xRange * L.m_yRange).toNat := by omega
  have hcast : (((x + y * L.m_xRange).toNat : Nat) : Int) = x + y * L.m_xRange :=
    Int.toNat_of_nonneg hb.1
  have h1 : (x + y * L.m_xRange) % L.m_xRange = x := by
    rw [Int.add_mul_emod_self, Int.emod_eq_of_lt hx0 hxW]
  have h2 : (x + y * L.m_xRange) / L.m_xRange = y := by
    rw [Int.add_mul_ediv_right _ _ (by omega), Int.ediv_eq_zero_of_lt hx0 hxW]
    simp
  simp [sweepData, List.getElem?_map, List.getElem?_range hk, hcast, h1, h2]

theorem siteValue_after_update (st : Store) (cur dst : Ref) (dt : ℚ)
    (hd : WellFormed (st dst))
    (hW : (st dst).m_xRange = (st cur).m_xRange) (hH : (st dst).m_yRange = (st cur).m_yRange)
    (x y : Int) (hx0 : 0 ≤ x) (hxW : x < (st cur).m_xRange) (hy0 : 0 ≤ y)
    (hyH : y < (st cur).m_yRange) :
    (Function.update st dst ((st dst).withData (sweepData (st cur) dt)) dst).siteValue x y
      = some (eulerNext (st cur) x y dt) := by
  have hlen : (sweepData (st cur) dt).length = (st dst).m_data.length := by
    have h1 := hd.2.2
    rw [hW, hH] at h1
    rw [sweepData_length]
    omega
  have hX := wellFormed_withData _ hd _ hlen
  rw [Function.update_same, siteValue_in_range _ hX x y hx0 (by simpa [hW] using hxW) hy0
    (by simpa [hH] using hyH)]
  simp only [withData_data, withData_xRange, hW]
  exact sweepData_getElem _ dt x y hx0 hxW hy0 hyH

/-! ## Accumulating loops -/

theorem forFrom_sum (body : Int → ℚ → Option ℚ) (g : Int → ℚ) :
    ∀ (n : Nat) (i : Int) (acc : ℚ),
      (∀ k a, i ≤ k → k < i + n → body k a = some (a + g k)) →
      forFrom body i n acc = some (acc + ∑ m in Finset.range n, g (i + m)) := by
  intro n
  induction n with
  | zero =>
    intro i acc _
    simp [forFrom]
  | succ n ih =>
    intro i acc hbody
    have h1 := hbody i acc (le_refl i) (by push_cast; omega)
    have h2 := ih (i + 1) (acc + g i) (fun k a hk1 hk2 => hbody k a (by omega)
      (by push_cast; omega))
    simp only [forFrom, h1, Option.some_bind, h2]
    rw [Finset.sum_range_succ']
    have e : ∀ m : Nat, g (i + 1 + (m : Int)) = g (i + ((m + 1 : Nat) : Int)) := by
      intro m
      congr 1
      push_cast
      ring
    simp only [e]
    simp
    ring

theorem forUpTo_sum (body : Int → ℚ → Option ℚ) (g : Int → ℚ) (n : Int) (acc : ℚ)
    (hbody : ∀ k a, 0 ≤ k → k < n → body k a = some (a + g k)) :
    forUpTo n body acc = some (acc + ∑ m in Finset.range n.toNat, g (m : Int)) := by
  unfold forUpTo
  rw [forFrom_sum body g n.toNat 0 acc (fun k a hk1 hk2 => hbody k a hk1 (by omega))]
  simp

theorem totalFreeEnergy_eq (L : CHLattice) (hL : WellFormed L) :
    L.totalFreeEnergy
      = some (∑ x in Finset.range L.m_xRange.toNat, ∑ y in Finset.range L.m_yRange.toNat,
          freeEnergyDensity L (x : Int) (y : Int)) := by
  unfold CHLattice.totalFreeEnergy
  rw [forUpTo_sum _ (fun i => ∑ y in Finset.range L.m_yRange.toNat,
    freeEnergyDensity L i (y : Int))]
  · simp
  · intro i a hi0 _
    apply forUpTo_sum _ (fun j => freeEnergyDensity L i j)
    intro j b hj0 _
    simp [freeEnergy_eq_density L hL i j (by omega) (by omega)]

/-! ## Uniform fields -/

theorem phi_uniform (L : CHLattice) (hL : WellFormed L) (c : ℚ) (hu : ∀ q ∈ L.m_data, q = c)
    (x y : Int) : phi L x y = c := by
  have hb := emod_cell_bounds L hL x y
  have hk : (x % L.m_xRange + y % L.m_yRange * L.m_xRange).toNat < L.m_data.length := by omega
  unfold phi
  rw [List.getD_eq_getElem?_getD, List.getElem?_eq_getElem hk]
  exact hu _ (List.getElem_mem hk)

theorem mu_uniform (L : CHLattice) (hL : WellFormed L) (c : ℚ) (hu : ∀ q ∈ L.m_data, q = c)
    (x y : Int) : mu L x y = -L.m_a * c + L.m_a * c ^ 3 := by
  simp only [mu, phi_uniform L hL c hu]
  ring

theorem eulerNext_uniform (L : CHLattice) (hL : WellFormed L) (c : ℚ)
    (hu : ∀ q ∈ L.m_data, q = c) (x y : Int) (dt : ℚ) : eulerNext L x y dt = c := by
  simp only [eulerNext, mu_uniform L hL c hu, phi_uniform L hL c hu]
  ring

theorem freeEnergyDensity_zero (L : CHLattice) (hL : WellFormed L)
    (hu : ∀ q ∈ L.m_data, q = 0) (x y : Int) : freeEnergyDensity L x y = 0 := by
  simp [freeEnergyDensity, phi_uniform L hL 0 hu]

/-! ## Emissions of the driver are defined on well-formed lattices -/

theorem forUpTo_defined {σ : Type} (body : Int → σ → Option σ) (n : Int) (hn : 0 ≤ n) (s : σ)
    (hbody : ∀ k t, 0 ≤ k → k < n → ∃ t', body k t = some t') :
    ∃ s', forUpTo n body s = some s' := by
  obtain ⟨s', hs', _⟩ := forUpTo_invariant body (fun _ _ => True) n hn s
    (fun k t hk0 hkn _ => by
      obtain ⟨t', ht'⟩ := hbody k t hk0 hkn
      exact ⟨t', ht', trivial⟩) trivial
  exact ⟨s', hs'⟩

theorem forDown_defined {σ : Type} (body : Int → σ → Option σ) :
    ∀ (n : Nat) (s : σ), (∀ k t, 0 ≤ k → k < (n : Int) → ∃ t', body k t = some t') →
      ∃ s', forDown body n s = some s' := by
  intro n
  induction n with
  | zero =>
    intro s _
    exact ⟨s, rfl⟩
  | succ n ih =>
    intro s hbody
    obtain ⟨t, ht⟩ := hbody n s (by omega) (by push_cast; omega)
    obtain ⟨s', hs'⟩ := ih t (fun k u hk0 hkn => hbody k u hk0 (by push_cast; omega))
    exact ⟨s', by simp [forDown, ht, hs']⟩

theorem streamRow_defined (L : CHLattice) (hL : WellFormed L) (j : Int) (hj0 : 0 ≤ j)
    (out : List OutItem) : ∃ out1, streamRow L j out = some out1 := by
  obtain ⟨o, ho⟩ := forUpTo_defined
    (fun i out => (L.siteValue i j).bind
      (fun v => some (out ++ [OutItem.value v, OutItem.space])))
    L.m_xRange (by have := hL.1; omega) out
    (fun k t hk0 _ => by
      simp only [siteValue_eq_phi L hL k j (Or.inl (by have := hL.1; omega))
        (Or.inl (by have := hL.2.1; omega)), Option.some_bind]
      exact ⟨_, rfl⟩)
  refine ⟨o ++ [OutItem.newline], ?_⟩
  unfold streamRow
  have e : (fun i out => do
      let v ← L.siteValue i j
      pure (out ++ [OutItem.value v, OutItem.space]))
      = (fun i out => (L.siteValue i j).bind
        (fun v => some (out ++ [OutItem.value v, OutItem.space]))) := rfl
  rw [e]
  simp [ho]

theorem streamLattice_defined (L : CHLattice) (hL : WellFormed L) (out : List OutItem) :
    ∃ out1, streamLattice L out = some out1 :=
  forDown_defined _ _ out (fun k t hk0 _ => streamRow_defined L hL k hk0 t)

/-! ## The driver loop against the reference -/

theorem withData_of_sameShape (U L : CHLattice) (h : SameShape U L) (d : List ℚ) :
    U.withData d = L.withData d := by
  obtain ⟨h1, h2, h3, h4, h5, h6⟩ := h
  cases U
  cases L
  simp only [CHLattice.withData] at *
  simp [h1, h2, h3, h4, h5, h6]

theorem wellFormed_sweep (L : CHLattice) (hL : WellFormed L) (dt : ℚ) :
    WellFormed (L.withData (sweepData L dt)) := by
  apply wellFormed_withData L hL
  rw [sweepData_length]
  have := hL.2.2
  omega

theorem loopBody_spec (animate : Bool) (dt : ℚ) (d : Driver) (L : CHLattice)
    (h : DriverInv d L) :
    ∃ d1, loopBody animate dt d = some d1 ∧ DriverInv d1 (L.withData (sweepData L dt)) ∧
      d1.t = d.t + 1 := by
  obtain ⟨hcur, hL, hU, hS⟩ := h
  have hne : currentLattice ≠ updatedLattice := by decide
  have hup := update_eq d.store currentLattice updatedLattice dt hne (by rw [hcur]; exact hL) hU
    (by rw [hcur]; exact hS.1) (by rw [hcur]; exact hS.2.1)
  rw [hcur, withData_of_sameShape _ L hS] at hup
  have hN := wellFormed_sweep L hL dt
  obtain ⟨frame, hframe⟩ := streamLattice_defined _ hN []
  have hfe := totalFreeEnergy_eq _ hN
  have hst1u : Function.update d.store updatedLattice (L.withData (sweepData L dt)) updatedLattice
      = L.withData (sweepData L dt) := Function.update_same _ _ _
  have hst1c : Function.update d.store updatedLattice (L.withData (sweepData L dt)) currentLattice
      = L := by
    rw [Function.update_noteq hne]
    exact hcur
  have hsh : SameShape L (L.withData (sweepData L dt)) := ⟨rfl, rfl, rfl, rfl, rfl, rfl⟩
  have hinv : ∀ d1 : Driver,
      d1.store = swapLattices currentLattice updatedLattice
        (Function.update d.store updatedLattice (L.withData (sweepData L dt))) →
      DriverInv d1 (L.withData (sweepData L dt)) := by
    intro d1 hd1
    refine ⟨?_, hN, ?_, ?_⟩
    · rw [hd1]
      simp [swapLattices, Function.update_noteq hne]
    · rw [hd1]
      simp only [swapLattices, Function.update_same, hst1c]
      exact hL
    · rw [hd1]
      simp only [swapLattices, Function.update_same, hst1c]
      exact hsh
  by_cases hc : animate = true ∧ 0 = Int.tmod d.t 1000
  · have hres : loopBody animate dt d = some
        { store := swapLattices currentLattice updatedLattice
            (Function.update d.store updatedLattice (L.withData (sweepData L dt))),
          t := d.t + 1, latticeOutput := d.latticeOutput ++ [frame],
          freeEnergy := d.freeEnergy } := by
      simp only [loopBody, hup, Option.bind_eq_bind, Option.some_bind, if_pos hc, hst1u, hframe,
        Option.pure_def]
    exact ⟨_, hres, hinv _ rfl, rfl⟩
  · have hres : loopBody animate dt d = some
        { store := swapLattices currentLattice updatedLattice
            (Function.update d.store updatedLattice (L.withData (sweepData L dt))),
          t := d.t + 1, latticeOutput := d.latticeOutput,
          freeEnergy := d.freeEnergy ++ [(d.t,
            ∑ x in Finset.range L.m_xRange.toNat, ∑ y in Finset.range L.m_yRange.toNat,
              freeEnergyDensity (L.withData (sweepData L dt)) (x : Int) (y : Int))] } := by
      simp only [loopBody, hup, Option.bind_eq_bind, Option.some_bind, if_neg hc, hst1u, hfe,
        Option.pure_def, withData_xRange, withData_yRange]
    exact ⟨_, hres, hinv _ rfl, rfl⟩

/-- C2. In exact arithmetic, on a lattice with `W, H ≥ 1` and spatial step `dx ≠ 0` (where the
divisions by `dx²` are defined), at every in-range site `(x, y)` and for every `dt`, the five
calls of `chemicalPotential` made by `nextValue(x, y, dt)` return values
`μ(x,y), μ(x+1,y), μ(x-1,y), μ(x,y+1), μ(x,y-1)` and `nextValue` returns
`φ(x,y) + (M·dt/dx²)·(μ(x+1,y) + μ(x-1,y) + μ(x,y+1) + μ(x,y-1) - 4·μ(x,y))`, with `φ` the
periodically wrapped site value. -/
theorem nextValue_formula (L : CHLattice) (hL : WellFormed L) (_hdx : L.m_dx ≠ 0) (x y : Int)
    (hx0 : 0 ≤ x) (_hxW : x < L.m_xRange) (hy0 : 0 ≤ y) (_hyH : y < L.m_yRange) (dt : ℚ) :
    ∃ mC mR mL mU mD : ℚ,
      L.chemicalPotential x y = some mC ∧ L.chemicalPotential (x + 1) y = some mR ∧
      L.chemicalPotential (x - 1) y = some mL ∧ L.chemicalPotential x (y + 1) = some mU ∧
      L.chemicalPotential x (y - 1) = some mD ∧
      L.nextValue x y dt
        = some (phi L x y + L.m_M * dt / L.m_dx ^ 2 * (mR + mL + mU + mD - 4 * mC)) := by
  refine ⟨mu L x y, mu L (x + 1) y, mu L (x - 1) y, mu L x (y + 1), mu L x (y - 1),
    chemicalPotential_eq_mu L hL _ _ (by omega) (by omega),
    chemicalPotential_eq_mu L hL _ _ (by omega) (by omega),
    chemicalPotential_eq_mu L hL _ _ (by omega) (by omega),
    chemicalPotential_eq_mu L hL _ _ (by omega) (by omega),
    chemicalPotential_eq_mu L hL _ _ (by omega) (by omega), ?_⟩
  rw [nextValue_eq_eulerNext L hL x y hx0 hy0 dt]
  rfl

theorem nextValue_formula_witness :
    ∃ mC mR mL mU mD : ℚ,
      coarseLattice.chemicalPotential 1 0 = some mC ∧
      coarseLattice.chemicalPotential (1 + 1) 0 = some mR ∧
      coarseLattice.chemicalPotential (1 - 1) 0 = some mL ∧
      coarseLattice.chemicalPotential 1 (0 + 1) = some mU ∧
      coarseLattice.chemicalPotential 1 (0 - 1) = some mD ∧
      coarseLattice.nextValue 1 0 (1 / 2)
        = some (phi coarseLattice 1 0
            + coarseLattice.m_M * (1 / 2) / coarseLattice.m_dx ^ 2 * (mR + mL + mU + mD - 4 * mC)) :=
  nextValue_formula coarseLattice (by decide) (by decide) 1 0 (by decide) (by decide) (by decide) (by decide)
    (1 / 2)

/-- C3. In exact arithmetic, on a lattice with `W, H ≥ 1` and spatial step `dx ≠ 0` (where the
division by `dx²` is defined), for every site `(x, y)` with
`x` in `[-1, W]` and `y` in `[-1, H]`, the five reads of `chemicalPotential(x, y)` return the
periodically wrapped values `φ` and `chemicalPotential(x, y)` returns
`-a·φ(x,y) + a·φ(x,y)³ - (k/dx²)·(φ(x+1,y) + φ(x-1,y) + φ(x,y+1) + φ(x,y-1) - 4·φ(x,y))`. -/
theorem chemicalPotential_formula (L : CHLattice) (hL : WellFormed L) (_hdx : L.m_dx ≠ 0)
    (x y : Int)
    (hx0 : -1 ≤ x) (_hxW : x ≤ L.m_xRange) (hy0 : -1 ≤ y) (_hyH : y ≤ L.m_yRange) :
    L.siteValue x y = some (phi L x y) ∧ L.siteValue (x + 1) y = some (phi L (x + 1) y) ∧
    L.siteValue (x - 1) y = some (phi L (x - 1) y) ∧
    L.siteValue x (y + 1) = some (phi L x (y + 1)) ∧
    L.siteValue x (y - 1) = some (phi L x (y - 1)) ∧
    L.chemicalPotential x y
      = some (-L.m_a * phi L x y + L.m_a * phi L x y ^ 3
          - L.m_k / L.m_dx ^ 2
            * (phi L (x + 1) y + phi L (x - 1) y + phi L x (y + 1) + phi L x (y - 1)
              - 4 * phi L x y)) := by
  have r := fun (a b : Int) (ha : -2 ≤ a) (hb : -2 ≤ b) =>
    siteValue_eq_phi L hL a b (reaches_of_ge_neg_two _ _ hL.1 ha)
      (reaches_of_ge_neg_two _ _ hL.2.1 hb)
  exact ⟨r _ _ (by omega) (by omega), r _ _ (by omega) (by omega), r _ _ (by omega) (by omega),
    r _ _ (by omega) (by omega), r _ _ (by omega) (by omega),
    chemicalPotential_eq_mu L hL x y hx0 hy0⟩

theorem chemicalPotential_formula_witness :
    coarseLattice.siteValue (-1) 2 = some (phi coarseLattice (-1) 2) ∧
    coarseLattice.siteValue (-1 + 1) 2 = some (phi coarseLattice (-1 + 1) 2) ∧
    coarseLattice.siteValue (-1 - 1) 2 = some (phi coarseLattice (-1 - 1) 2) ∧
    coarseLattice.siteValue (-1) (2 + 1) = some (phi coarseLattice (-1) (2 + 1)) ∧
    coarseLattice.siteValue (-1) (2 - 1) = some (phi coarseLattice (-1) (2 - 1)) ∧
    coarseLattice.chemicalPotential (-1) 2
      = some (-coarseLattice.m_a * phi coarseLattice (-1) 2
          + coarseLattice.m_a * phi coarseLattice (-1) 2 ^ 3
          - coarseLattice.m_k / coarseLattice.m_dx ^ 2
            * (phi coarseLattice (-1 + 1) 2 + phi coarseLattice (-1 - 1) 2
              + phi coarseLattice (-1) (2 + 1) + phi coarseLattice (-1) (2 - 1)
              - 4 * phi coarseLattice (-1) 2)) :=
  chemicalPotential_formula coarseLattice (by decide) (by decide) (-1) 2 (by decide) (by decide) (by decide)
    (by decide)

/-- C4. In exact arithmetic, on a lattice with `W, H ≥ 1` and spatial step `dx ≠ 0` (where the
divisions by `2·dx` are defined), at every in-range site `(x, y)`,
the five reads of `freeEnergy(x, y)` return the periodically wrapped values `φ` and
`freeEnergy(x, y)` returns
`-(a/2)·φ(x,y)² + (a/4)·φ(x,y)⁴
  + (k/2)·[((φ(x+1,y) - φ(x-1,y))/(2·dx))² + ((φ(x,y+1) - φ(x,y-1))/(2·dx))²]`. -/
theorem freeEnergy_formula (L : CHLattice) (hL : WellFormed L) (_hdx : L.m_dx ≠ 0)
    (x y : Int)
    (hx0 : 0 ≤ x) (_hxW : x < L.m_xRange) (hy0 : 0 ≤ y) (_hyH : y < L.m_yRange) :
    L.siteValue x y = some (phi L x y) ∧ L.siteValue (x + 1) y = some (phi L (x + 1) y) ∧
    L.siteValue (x - 1) y = some (phi L (x - 1) y) ∧
    L.siteValue x (y + 1) = some (phi L x (y + 1)) ∧
    L.siteValue x (y - 1) = some (phi L x (y - 1)) ∧
    L.freeEnergy x y
      = some (-(L.m_a / 2) * phi L x y ^ 2 + L.m_a / 4 * phi L x y ^ 4
          + L.m_k / 2
            * (((phi L (x + 1) y - phi L (x - 1) y) / (2 * L.m_dx)) ^ 2
              + ((phi L x (y + 1) - phi L x (y - 1)) / (2 * L.m_dx)) ^ 2)) := by
  have r := fun (a b : Int) (ha : -2 ≤ a) (hb : -2 ≤ b) =>
    siteValue_eq_phi L hL a b (reaches_of_ge_neg_two _ _ hL.1 ha)
      (reaches_of_ge_neg_two _ _ hL.2.1 hb)
  exact ⟨r _ _ (by omega) (by omega), r _ _ (by omega) (by omega), r _ _ (by omega) (by omega),
    r _ _ (by omega) (by omega), r _ _ (by omega) (by omega),
    freeEnergy_eq_density L hL x y (by omega) (by omega)⟩

theorem freeEnergy_formula_witness :
    coarseLattice.siteValue 0 1 = some (phi coarseLattice 0 1) ∧
    coarseLattice.siteValue (0 + 1) 1 = some (phi coarseLattice (0 + 1) 1) ∧
    coarseLattice.siteValue (0 - 1) 1 = some (phi coarseLattice (0 - 1) 1) ∧
    coarseLattice.siteValue 0 (1 + 1) = some (phi coarseLattice 0 (1 + 1)) ∧
    coarseLattice.siteValue 0 (1 - 1) = some (phi coarseLattice 0 (1 - 1)) ∧
    coarseLattice.freeEnergy 0 1
      = some (-(coarseLattice.m_a / 2) * phi coarseLattice 0 1 ^ 2
          + coarseLattice.m_a / 4 * phi coarseLattice 0 1 ^ 4
          + coarseLattice.m_k / 2
            * (((phi coarseLattice (0 + 1) 1 - phi coarseLattice (0 - 1) 1)
                  / (2 * coarseLattice.m_dx)) ^ 2
              + ((phi coarseLattice 0 (1 + 1) - phi coarseLattice 0 (1 - 1))
                  / (2 * coarseLattice.m_dx)) ^ 2)) :=
  freeEnergy_formula coarseLattice (by decide) (by decide) 0 1 (by decide) (by decide) (by decide)
    (by decide)

/-- C5, as stated, fails: on the 2 by 2 lattice with field `[1, 2, 3, 4]`, `x = -3`, `y = 1`
and `n = 2`, the read at `(x, y)` returns the value of cell `(1, 0)` and the read at
`(x + n·W, y + n·H) = (1, 5)` returns the value of cell `(1, 1)`. -/
theorem siteValue_periodicity_counterexample :
    WellFormed sampleLattice ∧
    sampleLattice.siteValue (-3) 1 = some 2 ∧
    sampleLattice.siteValue (-3 + 2 * sampleLattice.m_xRange) (1 + 2 * sampleLattice.m_yRange)
      = some 4 ∧
    sampleLattice.siteValue (-3) 1
      ≠ sampleLattice.siteValue (-3 + 2 * sampleLattice.m_xRange)
          (1 + 2 * sampleLattice.m_yRange) := by
  have h1 : sampleLattice.storageIndex (-3) 1 = some 1 := by decide
  have h2 : sampleLattice.storageIndex (-3 + 2 * sampleLattice.m_xRange)
      (1 + 2 * sampleLattice.m_yRange) = some 3 := by decide
  have hd : sampleLattice.m_data = [1, 2, 3, 4] := rfl
  refine ⟨by decide, ?_, ?_, ?_⟩ <;> simp [CHLattice.siteValue, h1, h2, vecGet, hd]

/-- C5, amended. On a lattice with `W, H ≥ 1`, for all integers `x, y, n` such that `x` and
`x + n·W` are each at least `-W` or a multiple of `W`, `y` and `y + n·H` are each at least
`-H` or a multiple of `H`, and the `int` operations of the two accesses are representable
(the coordinates `x`, `y`, `x + n·W`, `y + n·H`, each of them plus `W` resp. `H`, and `W·H`
lie in the 32-bit range), the read `siteValue(x, y)` is defined and equals
`siteValue(x + n·W, y + n·H)`. -/
theorem siteValue_periodic (L : CHLattice) (hL : WellFormed L) (x y n : Int)
    (hx : Reaches L.m_xRange x) (hxn : Reaches L.m_xRange (x + n * L.m_xRange))
    (hy : Reaches L.m_yRange y) (hyn : Reaches L.m_yRange (y + n * L.m_yRange))
    (_hr : AccessRepresentable L x y)
    (_hrn : AccessRepresentable L (x + n * L.m_xRange) (y + n * L.m_yRange)) :
    (∃ v, L.siteValue x y = some v) ∧
    L.siteValue x y = L.siteValue (x + n * L.m_xRange) (y + n * L.m_yRange) := by
  rw [siteValue_eq_phi L hL x y hx hy, siteValue_eq_phi L hL _ _ hxn hyn]
  refine ⟨⟨_, rfl⟩, ?_⟩
  simp only [phi, Int.add_mul_emod_self]

theorem siteValue_periodic_witness :
    (∃ v, sampleLattice.siteValue (-2) 5 = some v) ∧
    sampleLattice.siteValue (-2) 5
      = sampleLattice.siteValue (-2 + 1073741820 * sampleLattice.m_xRange)
          (5 + 1073741820 * sampleLattice.m_yRange) :=
  siteValue_periodic sampleLattice (by decide) (-2) 5 1073741820 (by decide) (by decide)
    (by decide) (by decide) (by decide) (by decide)

/-- C6, as stated, fails: on the 2 by 2 lattice the access at `(-3, 0)` computes the storage
index `-1`, outside `[0, W·H)`, and reads no cell, while the effective indices of the claim give
column 1 and row 0. -/
theorem storageIndex_counterexample :
    WellFormed sampleLattice ∧
    sampleLattice.storageIndex (-3) 0 = some (-1) ∧
    sampleLattice.siteValue (-3) 0 = none ∧
    (∀ v, sampleLattice.assignSite (-3) 0 v = none) ∧
    effectiveIndex (-3) sampleLattice.m_xRange = 1 ∧
    effectiveIndex 0 sampleLattice.m_yRange = 0 := by
  have h1 : sampleLattice.storageIndex (-3) 0 = some (-1) := by decide
  refine ⟨by decide, h1, ?_, ?_, by decide, by decide⟩
  · simp [CHLattice.siteValue, h1, vecGet]
  · intro v
    simp [CHLattice.assignSite, h1, vecSet]

/-- C6, amended. On a lattice with `W, H ≥ 1`, for every pair of integers `(x, y)` with `x` at
least `-W` or a multiple of `W` and `y` at least `-H` or a multiple of `H` (values at or beyond
the range included), and such that the `int` operations of the access are representable (`x`,
`y`, `x + W`, `y + H` and `W·H` lie in the 32-bit range), both overloads of `operator()(x, y)` access the cell at column
`((x mod W)+W) mod W` and row `((y mod H)+H) mod H`: these lie in `[0, W)` and `[0, H)`, the
storage index is in `[0, W·H)`, the read returns the value stored there and the write replaces
it. -/
theorem storageIndex_valid (L : CHLattice) (hL : WellFormed L) (x y : Int)
    (hx : Reaches L.m_xRange x) (hy : Reaches L.m_yRange y)
    (_hr : AccessRepresentable L x y) :
    ∃ k : Int, L.storageIndex x y = some k ∧
      k = effectiveIndex x L.m_xRange + effectiveIndex y L.m_yRange * L.m_xRange ∧
      0 ≤ effectiveIndex x L.m_xRange ∧ effectiveIndex x L.m_xRange < L.m_xRange ∧
      0 ≤ effectiveIndex y L.m_yRange ∧ effectiveIndex y L.m_yRange < L.m_yRange ∧
      0 ≤ k ∧ k < L.m_xRange * L.m_yRange ∧ k.toNat < L.m_data.length ∧
      (∃ h : k.toNat < L.m_data.length, L.siteValue x y = some (L.m_data.get ⟨k.toNat, h⟩)) ∧
      ∀ v, L.assignSite x y v = some (L.withData (L.m_data.set k.toNat v)) := by
  have hW := hL.1
  have hH := hL.2.1
  have hidx := storageIndex_of_reaches L hL x y hx hy
  have hb := emod_cell_bounds L hL x y
  have hk : (x % L.m_xRange + y % L.m_yRange * L.m_xRange).toNat < L.m_data.length := by omega
  refine ⟨_, hidx, ?_, ?_, ?_, ?_, ?_, hb.1, ?_, hk, ⟨hk, ?_⟩, ?_⟩
  · rw [effectiveIndex_eq_emod x _ hW, effectiveIndex_eq_emod y _ hH]
  · rw [effectiveIndex_eq_emod x _ hW]
    exact Int.emod_nonneg _ (by omega)
  · rw [effectiveIndex_eq_emod x _ hW]
    exact Int.emod_lt_of_pos _ (by omega)
  · rw [effectiveIndex_eq_emod y _ hH]
    exact Int.emod_nonneg _ (by omega)
  · rw [effectiveIndex_eq_emod y _ hH]
    exact Int.emod_lt_of_pos _ (by omega)
  · rw [← hL.2.2]
    exact hb.2
  · simp [CHLattice.siteValue, hidx, vecGet, hb.1, List.getElem?_eq_getElem hk]
  · intro v
    simp [CHLattice.assignSite, hidx, vecSet, hb.1, hk]

theorem storageIndex_valid_witness :
    ∃ k : Int, sampleLattice.storageIndex 2147483645 7 = some k ∧
      k = effectiveIndex 2147483645 sampleLattice.m_xRange
          + effectiveIndex 7 sampleLattice.m_yRange * sampleLattice.m_xRange ∧
      0 ≤ effectiveIndex 2147483645 sampleLattice.m_xRange ∧
      effectiveIndex 2147483645 sampleLattice.m_xRange < sampleLattice.m_xRange ∧
      0 ≤ effectiveIndex 7 sampleLattice.m_yRange ∧
      effectiveIndex 7 sampleLattice.m_yRange < sampleLattice.m_yRange ∧
      0 ≤ k ∧ k < sampleLattice.m_xRange * sampleLattice.m_yRange ∧
      k.toNat < sampleLattice.m_data.length ∧
      (∃ h : k.toNat < sampleLattice.m_data.length,
        sampleLattice.siteValue 2147483645 7 = some (sampleLattice.m_data.get ⟨k.toNat, h⟩)) ∧
      ∀ v, sampleLattice.assignSite 2147483645 7 v
        = some (sampleLattice.withData (sampleLattice.m_data.set k.toNat v)) :=
  storageIndex_valid sampleLattice (by decide) 2147483645 7 (by decide) (by decide)
    (by decide)

theorem initialiseLoop_bound (v : ℚ) (d : List ℚ) (g : Generator)
    (hg : ∀ n, 0 ≤ g.variates n ∧ g.variates n < 1) :
    (initialiseLoop v d g).1.length = d.length ∧
      ∀ q ∈ (initialiseLoop v d g).1, v - 1 / 100 ≤ q ∧ q < v + 1 / 100 := by
  induction d generalizing g with
  | nil => simp [initialiseLoop]
  | cons a rest ih =>
    have ih1 := ih { g with used := g.used + 1 } hg
    simp only [initialiseLoop, uniformRealDistribution, List.length_cons, List.mem_cons]
    refine ⟨by rw [ih1.1], ?_⟩
    intro q hq
    rcases hq with rfl | hq
    · have := hg g.used
      constructor <;> linarith
    · exact ih1.2 q hq

/-- What `initialise` does guarantee, whatever the requested noise amplitude: the field keeps
its size and every site lies in `[v - 0.01, v + 0.01)`. -/
theorem initialise_fixed_bound (L : CHLattice) (v noise : ℚ) (g : Generator)
    (hg : ∀ n, 0 ≤ g.variates n ∧ g.variates n < 1) :
    (L.initialise v noise g).1.m_data.length = L.m_data.length ∧
      ∀ q ∈ (L.initialise v noise g).1.m_data, v - 1 / 100 ≤ q ∧ q < v + 1 / 100 :=
  initialiseLoop_bound v L.m_data g hg

/-- C7, the code at a failing input: with initial value 0 and noise amplitude 0, on the one-site
lattice and a random source whose variate is `3/4` (a canonical variate, in `[0, 1)`), the site
holds `1/200` after `initialise`, outside `[0 - 0, 0 + 0]`. -/
theorem initialise_ignores_noise :
    WellFormed oneSiteLattice ∧
    (∀ n, 0 ≤ sampleGenerator.variates n ∧ sampleGenerator.variates n < 1) ∧
    (oneSiteLattice.initialise 0 0 sampleGenerator).1.siteValue 0 0 = some (1 / 200) ∧
    ¬ ((0 : ℚ) - 0 ≤ 1 / 200 ∧ (1 / 200 : ℚ) ≤ 0 + 0) := by
  have hidx : ∀ d, (oneSiteLattice.withData d).storageIndex 0 0 = some 0 := by
    intro d
    rfl
  have hdata : (oneSiteLattice.initialise 0 0 sampleGenerator).1
      = oneSiteLattice.withData [1 / 200] := by
    simp only [CHLattice.initialise, oneSiteLattice, initialiseLoop, uniformRealDistribution,
      sampleGenerator]
    norm_num
  refine ⟨by decide, ?_, ?_, by norm_num⟩
  · intro n
    simp only [sampleGenerator]
    norm_num
  · rw [hdata]
    simp [CHLattice.siteValue, hidx, vecGet]

/-- C8. In exact arithmetic, on a lattice with `W, H ≥ 1` and spatial step `dx ≠ 0` (where the
divisions by `dx²` are defined) whose sites all hold the same value `φ₀`, at every in-range site
and for every `dt`, `chemicalPotential(x, y) = -a·φ₀ + a·φ₀³` and `nextValue(x, y, dt) = φ₀`.
In particular the 4 by 4 lattice with `M = a = k = 0.1`, `dx = 1` the
constructor builds is all zero, its `chemicalPotential` is 0 at every in-range site, and one
`update` with `dt = 1` returns with every in-range site of the destination equal to 0. -/
theorem uniform_fixed_point :
    (∀ (L : CHLattice) (c : ℚ), WellFormed L → L.m_dx ≠ 0 → (∀ q ∈ L.m_data, q = c) →
      ∀ x y : Int, 0 ≤ x → x < L.m_xRange → 0 ≤ y → y < L.m_yRange → ∀ dt : ℚ,
        L.chemicalPotential x y = some (-L.m_a * c + L.m_a * c ^ 3) ∧
        L.nextValue x y dt = some c) ∧
    CHLattice.construct 4 4 (1 / 10) (1 / 10) (1 / 10) 1 = some zeroLattice ∧
    (∀ x y : Int, 0 ≤ x → x < 4 → 0 ≤ y → y < 4 →
      zeroLattice.siteValue x y = some 0 ∧ zeroLattice.chemicalPotential x y = some 0) ∧
    ∃ st1, update currentLattice updatedLattice 1 (fun _ => zeroLattice) = some st1 ∧
      ∀ x y : Int, 0 ≤ x → x < 4 → 0 ≤ y → y < 4 →
        (st1 updatedLattice).siteValue x y = some 0 ∧
        (st1 currentLattice).siteValue x y = some 0 := by
  have hz : WellFormed zeroLattice := by decide
  have hu : ∀ q ∈ zeroLattice.m_data, q = 0 := by
    intro q hq
    exact List.eq_of_mem_replicate hq
  have hsite : ∀ x y : Int, 0 ≤ x → 0 ≤ y → zeroLattice.siteValue x y = some 0 := by
    intro x y hx0 hy0
    rw [siteValue_eq_phi _ hz x y (Or.inl (by have := hz.1; omega))
      (Or.inl (by have := hz.2.1; omega)), phi_uniform _ hz 0 hu]
  refine ⟨?_, rfl, ?_, ?_⟩
  · intro L c hL _ hc x y hx0 _ hy0 _ dt
    rw [chemicalPotential_eq_mu L hL x y (by omega) (by omega),
      nextValue_eq_eulerNext L hL x y hx0 hy0 dt, mu_uniform L hL c hc,
      eulerNext_uniform L hL c hc]
    exact ⟨rfl, rfl⟩
  · intro x y hx0 _ hy0 _
    refine ⟨hsite x y hx0 hy0, ?_⟩
    rw [chemicalPotential_eq_mu _ hz x y (by omega) (by omega), mu_uniform _ hz 0 hu]
    norm_num
  · have hne : currentLattice ≠ updatedLattice := by decide
    refine ⟨_, update_eq (fun _ => zeroLattice) currentLattice updatedLattice 1 hne hz hz rfl rfl,
      ?_⟩
    intro x y hx0 hxW hy0 hyH
    constructor
    · rw [siteValue_after_update (fun _ => zeroLattice) currentLattice updatedLattice 1 hz rfl rfl
        x y hx0 hxW hy0 hyH, eulerNext_uniform _ hz 0 hu]
    · rw [Function.update_noteq hne]
      exact hsite x y hx0 hy0

theorem uniform_fixed_point_witness :
    (coarseLattice.withData [5, 5, 5, 5]).chemicalPotential 1 1
      = some (-(coarseLattice.withData [5, 5, 5, 5]).m_a * 5
          + (coarseLattice.withData [5, 5, 5, 5]).m_a * 5 ^ 3) ∧
    (coarseLattice.withData [5, 5, 5, 5]).nextValue 1 1 (1 / 2) = some 5 :=
  uniform_fixed_point.1 (coarseLattice.withData [5, 5, 5, 5]) 5 (by decide) (by decide)
    (by simp) 1 1 (by decide) (by decide) (by decide) (by decide) (1 / 2)

/-- C10. On a lattice with `W, H ≥ 1` every `freeEnergy(x, y)` at an in-range site returns a
value and the no-argument `freeEnergy()` returns the sum of these values over all sites
`0 ≤ x < W`, `0 ≤ y < H`; when every site holds 0 and `dx ≠ 0` (where the divisions by `2·dx`
are defined) it returns 0. -/
theorem totalFreeEnergy_sum (L : CHLattice) (hL : WellFormed L) :
    (∃ f : Int → Int → ℚ,
      (∀ x y : Int, 0 ≤ x → x < L.m_xRange → 0 ≤ y → y < L.m_yRange →
        L.freeEnergy x y = some (f x y)) ∧
      L.totalFreeEnergy
        = some (∑ x in Finset.range L.m_xRange.toNat, ∑ y in Finset.range L.m_yRange.toNat,
            f (x : Int) (y : Int))) ∧
    ((∀ q ∈ L.m_data, q = 0) → L.m_dx ≠ 0 → L.totalFreeEnergy = some 0) := by
  refine ⟨⟨freeEnergyDensity L, ?_, totalFreeEnergy_eq L hL⟩, ?_⟩
  · intro x y hx0 _ hy0 _
    exact freeEnergy_eq_density L hL x y (by omega) (by omega)
  · intro hu _
    rw [totalFreeEnergy_eq L hL]
    simp [freeEnergyDensity_zero L hL hu]

theorem totalFreeEnergy_sum_witness :
    (∃ f : Int → Int → ℚ,
      (∀ x y : Int, 0 ≤ x → x < stripLattice.m_xRange → 0 ≤ y → y < stripLattice.m_yRange →
        stripLattice.freeEnergy x y = some (f x y)) ∧
      stripLattice.totalFreeEnergy
        = some (∑ x in Finset.range stripLattice.m_xRange.toNat,
            ∑ y in Finset.range stripLattice.m_yRange.toNat, f (x : Int) (y : Int))) ∧
    stripLattice.totalFreeEnergy = some (931 / 160) ∧
    zeroLattice.totalFreeEnergy = some 0 := by
  have hphi : ∀ x y : Int, phi stripLattice x y = [1, 2, 4].getD (x % 3 + y % 1 * 3).toNat 0 :=
    fun _ _ => rfl
  have hW : stripLattice.m_xRange.toNat = 3 := rfl
  have hH : stripLattice.m_yRange.toNat = 1 := rfl
  refine ⟨(totalFreeEnergy_sum stripLattice (by decide)).1, ?_,
    (totalFreeEnergy_sum zeroLattice (by decide)).2
      (fun _ hq => List.eq_of_mem_replicate hq) (by decide)⟩
  rw [totalFreeEnergy_eq stripLattice (by decide), hW, hH]
  have h2 : Int.toNat 2 = 2 := rfl
  simp only [Finset.sum_range_succ, Finset.sum_range_zero, freeEnergyDensity, hphi]
  norm_num [stripLattice, h2]

theorem construct_of_nonneg (W H : Int) (m a k dx : ℚ) (h : 0 ≤ W * H) :
    CHLattice.construct W H m a k dx = some (constructed W H m a k dx) := by
  simp [CHLattice.construct, constructed, not_lt.mpr h]

/-- C12, as stated, fails: with width 0 and height 5 the constructor produces a lattice (its
field is empty), and with width -2 and height -2 it produces a lattice with a field of 4
values. -/
theorem construct_nonpositive_counterexample :
    (∃ L, CHLattice.construct 0 5 (1 / 10) (1 / 10) (1 / 10) 1 = some L ∧ L.m_data = []) ∧
    (∃ L, CHLattice.construct (-2) (-2) (1 / 10) (1 / 10) (1 / 10) 1 = some L ∧
      L.m_data = [0, 0, 0, 0]) :=
  ⟨⟨_, construct_of_nonneg 0 5 _ _ _ _ (by decide), rfl⟩,
    ⟨_, construct_of_nonneg (-2) (-2) _ _ _ _ (by decide), rfl⟩⟩

theorem emissions_defined_degenerate (L : CHLattice)
    (h : L.m_xRange ≤ 0 ∨ L.m_yRange ≤ 0) :
    (∃ out, streamLattice L [] = some out) ∧ ∃ f, L.totalFreeEnergy = some f := by
  constructor
  · apply forDown_defined
    intro j out _ hj
    by_cases hW : L.m_xRange ≤ 0
    · have hW0 : L.m_xRange.toNat = 0 := by omega
      exact ⟨out ++ [OutItem.newline], by simp [streamRow, forUpTo, forFrom, hW0]⟩
    · have hH0 : L.m_yRange.toNat = 0 := by omega
      rw [hH0] at hj
      simp at hj
      omega
  · by_cases hW : L.m_xRange ≤ 0
    · have hW0 : L.m_xRange.toNat = 0 := by omega
      exact ⟨0, by simp [CHLattice.totalFreeEnergy, forUpTo, forFrom, hW0]⟩
    · have hH0 : L.m_yRange.toNat = 0 := by omega
      apply forUpTo_defined _ _ (by omega)
      intro i acc _ _
      exact ⟨acc, by simp [forUpTo, forFrom, hH0]⟩

/-- C12, amended. For a width `W ≤ 0` or a height `H ≤ 0` whose product `W·H` is representable
as an `int` (so that the source's `xRange*yRange` is `W·H`): when one dimension is negative and
the other positive the construction fails (the allocation of the field throws) and the simulation
section of `main` stops there, before any sweep or emission; otherwise, that is with a zero
dimension or with two negative dimensions, the constructor produces a lattice with these
dimensions whose field has `W·H` zeros (none when a dimension is 0), and the simulation section
of `main` starts. -/
theorem construct_nonpositive (W H : Int) (m a k dx : ℚ) (hdim : W ≤ 0 ∨ H ≤ 0)
    (_hprod : IntRange (W * H)) :
    ((W < 0 ∧ 0 < H) ∨ (0 < W ∧ H < 0) →
      CHLattice.construct W H m a k dx = none ∧
      ∀ (v noise : ℚ) (g : Generator), simulationStart W H m a k dx v noise g = none) ∧
    (¬ ((W < 0 ∧ 0 < H) ∨ (0 < W ∧ H < 0)) →
      ∃ L, CHLattice.construct W H m a k dx = some L ∧ L.m_xRange = W ∧ L.m_yRange = H ∧
        (L.m_data.length : Int) = W * H ∧ (∀ q ∈ L.m_data, q = 0) ∧
        (W = 0 ∨ H = 0 → L.m_data = []) ∧
        ∀ (v noise : ℚ) (g : Generator),
          ∃ d0, simulationStart W H m a k dx v noise g = some d0) := by
  constructor
  · intro hs
    have hneg : W * H < 0 := by
      rcases hs with ⟨hW, hH⟩ | ⟨hW, hH⟩
      · exact Int.mul_neg_of_neg_of_pos hW hH
      · exact Int.mul_neg_of_pos_of_neg hW hH
    refine ⟨by simp [CHLattice.construct, hneg], ?_⟩
    intro v noise g
    simp [simulationStart, CHLattice.construct, hneg]
  · intro hs
    have hnn : 0 ≤ W * H := by
      rcases hdim with hW | hH
      · rcases lt_or_ge H 1 with hH | hH
        · exact Int.mul_nonneg_of_nonpos_of_nonpos hW (by omega)
        · have hW0 : W = 0 := by
            by_contra hne
            exact hs (Or.inl ⟨by omega, by omega⟩)
          rw [hW0]
          simp
      · rcases lt_or_ge W 1 with hW | hW
        · exact Int.mul_nonneg_of_nonpos_of_nonpos (by omega) hH
        · have hH0 : H = 0 := by
            by_contra hne
            exact hs (Or.inr ⟨by omega, by omega⟩)
          rw [hH0]
          simp
    refine ⟨constructed W H m a k dx, construct_of_nonneg W H m a k dx hnn, rfl, rfl, ?_, ?_, ?_,
      ?_⟩
    · show ((List.replicate (W * H).toNat (0 : ℚ)).length : Int) = W * H
      rw [List.length_replicate]
      omega
    · intro q hq
      exact List.eq_of_mem_replicate hq
    · intro hz
      have h0 : W * H = 0 := by
        rcases hz with h | h <;> rw [h] <;> simp
      show List.replicate (W * H).toNat (0 : ℚ) = []
      rw [h0]
      rfl
    · intro v noise g
      obtain ⟨⟨frame, hframe⟩, ⟨f, hf⟩⟩ := emissions_defined_degenerate
        ((constructed W H m a k dx).initialise v noise g).1 hdim
      refine ⟨{ store := fun _ => ((constructed W H m a k dx).initialise v noise g).1, t := 0,
                latticeOutput := [frame], freeEnergy := [(0, f)] }, ?_⟩
      simp only [simulationStart, construct_of_nonneg W H m a k dx hnn, Option.bind_eq_bind,
        Option.some_bind, hframe, hf, Option.pure_def]

theorem construct_nonpositive_witness :
    CHLattice.construct (-3) 2 (1 / 10) (1 / 10) (1 / 10) 1 = none ∧
    ∀ (v noise : ℚ) (g : Generator),
      simulationStart (-3) 2 (1 / 10) (1 / 10) (1 / 10) 1 v noise g = none :=
  (construct_nonpositive (-3) 2 (1 / 10) (1 / 10) (1 / 10) 1 (by decide) (by decide)).1
    (by decide)

/-! ## Stencil accesses, assignment and the frame of the sweep -/

theorem index_surjective (W H k : Int) (hW : 1 ≤ W) (hk0 : 0 ≤ k) (hk : k < W * H) :
    0 ≤ k % W ∧ k % W < W ∧ 0 ≤ k / W ∧ k / W < H ∧ k % W + k / W * W = k := by
  refine ⟨Int.emod_nonneg _ (by omega), Int.emod_lt_of_pos _ (by omega),
    Int.ediv_nonneg hk0 (by omega), Int.ediv_lt_of_lt_mul (by omega) (by rw [Int.mul_comm]; exact hk),
    ?_⟩
  rw [Int.mul_comm]
  exact Int.emod_add_ediv _ _

theorem loopBody_detail (animate : Bool) (dt : ℚ) (d : Driver) (L : CHLattice)
    (h : DriverInv d L) :
    ∃ st1 d1, update currentLattice updatedLattice dt d.store = some st1 ∧
      loopBody animate dt d = some d1 ∧
      d1.store = swapLattices currentLattice updatedLattice st1 ∧ d1.t = d.t + 1 ∧
      DriverInv d1 (L.withData (sweepData L dt)) ∧
      (animate = true ∧ 0 = Int.tmod d.t 1000 →
        ∃ frame, streamLattice (st1 updatedLattice) [] = some frame ∧
          d1.latticeOutput = d.latticeOutput ++ [frame] ∧ d1.freeEnergy = d.freeEnergy) ∧
      (¬ (animate = true ∧ 0 = Int.tmod d.t 1000) →
        ∃ f, (st1 updatedLattice).totalFreeEnergy = some f ∧
          d1.freeEnergy = d.freeEnergy ++ [(d.t, f)] ∧ d1.latticeOutput = d.latticeOutput) := by
  obtain ⟨d1, hd1, hInv1, ht1⟩ := loopBody_spec animate dt d L h
  obtain ⟨hcur, hL, hU, hS⟩ := h
  have hne : currentLattice ≠ updatedLattice := by decide
  have hup := update_eq d.store currentLattice updatedLattice dt hne (by rw [hcur]; exact hL) hU
    (by rw [hcur]; exact hS.1) (by rw [hcur]; exact hS.2.1)
  have hN := wellFormed_sweep L hL dt
  rw [hcur, withData_of_sameShape _ L hS] at hup
  obtain ⟨frame, hframe⟩ := streamLattice_defined _ hN []
  have hfe := totalFreeEnergy_eq _ hN
  have hst1u : Function.update d.store updatedLattice (L.withData (sweepData L dt)) updatedLattice
      = L.withData (sweepData L dt) := Function.update_same _ _ _
  refine ⟨_, d1, hup, hd1, ?_, ht1, hInv1, ?_, ?_⟩
  · by_cases hc : animate = true ∧ 0 = Int.tmod d.t 1000
    · simp only [loopBody, hup, Option.bind_eq_bind, Option.some_bind, if_pos hc, hst1u, hframe,
        Option.pure_def, Option.some.injEq] at hd1
      rw [← hd1]
    · simp only [loopBody, hup, Option.bind_eq_bind, Option.some_bind, if_neg hc, hst1u, hfe,
        Option.pure_def, Option.some.injEq] at hd1
      rw [← hd1]
  · intro hc
    simp only [loopBody, hup, Option.bind_eq_bind, Option.some_bind, if_pos hc, hst1u, hframe,
      Option.pure_def, Option.some.injEq] at hd1
    refine ⟨frame, by rw [hst1u]; exact hframe, ?_, ?_⟩ <;> rw [← hd1]
  · intro hc
    simp only [loopBody, hup, Option.bind_eq_bind, Option.some_bind, if_neg hc, hst1u, hfe,
      Option.pure_def, Option.some.injEq] at hd1
    refine ⟨_, by rw [hst1u]; exact hfe, ?_, ?_⟩ <;> rw [← hd1]

theorem iterateBody_succ (animate : Bool) (dt : ℚ) :
    ∀ (n : Nat) (d : Driver),
      iterateBody animate dt (n + 1) d = (iterateBody animate dt n d).bind (loopBody animate dt) := by
  intro n
  induction n with
  | zero =>
    intro d
    cases h : loopBody animate dt d <;> simp [iterateBody, h]
  | succ n ih =>
    intro d
    cases h : loopBody animate dt d with
    | none => simp [iterateBody, h]
    | some d1 =>
      have := ih d1
      simp only [iterateBody, h, Option.some_bind] at this ⊢
      exact this

theorem mainLoop_eq_iterate (animate : Bool) (dt : ℚ) (totalSteps : Int) :
    ∀ (n fuel : Nat) (d : Driver) (L : CHLattice), n ≤ fuel → d.t + n = totalSteps →
      DriverInv d L →
      mainLoop animate dt totalSteps fuel d = iterateBody animate dt n d := by
  intro n
  induction n with
  | zero =>
    intro fuel d L _ ht _
    have hnot : ¬ d.t < totalSteps := by
      simp at ht
      omega
    cases fuel <;> simp [mainLoop, iterateBody, hnot]
  | succ n ih =>
    intro fuel d L hfuel ht hInv
    obtain ⟨fuel1, rfl⟩ : ∃ f, fuel = f + 1 := ⟨fuel - 1, by omega⟩
    have hlt : d.t < totalSteps := by
      push_cast at ht
      omega
    obtain ⟨d1, hd1, hInv1, ht1⟩ := loopBody_spec animate dt d L hInv
    have h2 := ih fuel1 d1 _ (by omega) (by rw [ht1]; push_cast at ht; omega) hInv1
    simp [mainLoop, iterateBody, hlt, hd1, h2]

theorem initialiseLoop_length (v : ℚ) (d : List ℚ) (g : Generator) :
    (initialiseLoop v d g).1.length = d.length := by
  induction d generalizing g with
  | nil => simp [initialiseLoop]
  | cons a rest ih =>
    have ih1 := ih { g with used := g.used + 1 }
    simp only [initialiseLoop, uniformRealDistribution, List.length_cons]
    rw [ih1]

theorem simulationStart_spec (W H : Int) (hW : 1 ≤ W) (hH : 1 ≤ H) (m a k dx v noise : ℚ)
    (g : Generator) :
    ∃ d0 L f, simulationStart W H m a k dx v noise g = some d0 ∧
      d0.store currentLattice = L ∧ d0.store updatedLattice = L ∧ WellFormed L ∧
      d0.t = 0 ∧ d0.freeEnergy = [(0, f)] := by
  have hpos : 0 ≤ W * H := Int.mul_nonneg (by omega) (by omega)
  have hlen : (((constructed W H m a k dx).initialise v noise g).1.m_data.length : Int)
      = W * H := by
    show ((initialiseLoop v (List.replicate (W * H).toNat 0) g).1.length : Int) = W * H
    rw [initialiseLoop_length, List.length_replicate]
    omega
  have hwf : WellFormed ((constructed W H m a k dx).initialise v noise g).1 := ⟨hW, hH, hlen⟩
  obtain ⟨frame, hframe⟩ := streamLattice_defined _ hwf []
  obtain ⟨F, hF⟩ : ∃ F, ((constructed W H m a k dx).initialise v noise g).1.totalFreeEnergy
      = some F := ⟨_, totalFreeEnergy_eq _ hwf⟩
  refine ⟨{ store := fun _ => ((constructed W H m a k dx).initialise v noise g).1, t := 0,
            latticeOutput := [frame], freeEnergy := [(0, F)] }, _, F, ?_, rfl, rfl, hwf, rfl, rfl⟩
  simp only [simulationStart, construct_of_nonneg W H m a k dx hpos, Option.bind_eq_bind,
    Option.some_bind, hframe, hF, Option.pure_def]

theorem energy_indices (dt : ℚ) :
    ∀ (n : Nat) (d : Driver) (L : CHLattice), DriverInv d L →
      ∃ dn Ln, iterateBody false dt n d = some dn ∧ DriverInv dn Ln ∧ dn.t = d.t + n ∧
        dn.freeEnergy.map Prod.fst
          = d.freeEnergy.map Prod.fst ++ (List.range n).map (fun (m : Nat) => d.t + (m : Int)) := by
  intro n
  induction n with
  | zero =>
    intro d L h
    exact ⟨d, L, rfl, h, by simp, by simp⟩
  | succ n ih =>
    intro d L h
    obtain ⟨dn, Ln, hdn, hInvn, htn, hidx⟩ := ih d L h
    obtain ⟨st1, dn1, _, hbody, _, ht1, hInv1, _, hline⟩ := loopBody_detail false dt dn Ln hInvn
    obtain ⟨f, _, hfe, _⟩ := hline (by simp)
    refine ⟨dn1, _, ?_, hInv1, ?_, ?_⟩
    · rw [iterateBody_succ, hdn]
      exact hbody
    · rw [ht1, htn]
      push_cast
      ring
    · rw [hfe, List.map_append, hidx, List.range_succ, List.map_append, List.append_assoc, htn]
      simp

/-- The step indices of the free-energy series in non-animate mode: the line written before the
loop has index 0, and the `N` lines written by the loop have indices `0, 1, ..., N-1`. -/
theorem freeEnergy_series_indices (W H : Int) (hW : 1 ≤ W) (hH : 1 ≤ H)
    (m a k dx v noise : ℚ) (g : Generator) (dt : ℚ) (N : Nat) :
    ∃ d0 d, simulationStart W H m a k dx v noise g = some d0 ∧
      mainLoop false dt (N : Int) N d0 = some d ∧
      d.freeEnergy.map Prod.fst = 0 :: (List.range N).map (fun (n : Nat) => (n : Int)) := by
  obtain ⟨d0, L, f, hd0, hcur, hupd, hwf, ht0, hfe0⟩ :=
    simulationStart_spec W H hW hH m a k dx v noise g
  have hInv : DriverInv d0 L := ⟨hcur, hwf, by rw [hupd]; exact hwf,
    by rw [hupd]; exact ⟨rfl, rfl, rfl, rfl, rfl, rfl⟩⟩
  obtain ⟨d, _, hd, _, _, hidx⟩ := energy_indices dt N d0 L hInv
  refine ⟨d0, d, hd0, ?_, ?_⟩
  · rw [mainLoop_eq_iterate false dt (N : Int) N N d0 L (le_refl N) (by rw [ht0]; simp) hInv]
    exact hd
  · rw [hidx, hfe0, ht0]
    simp

/-- C15, the code at a failing input: in non-animate mode, on a one-site lattice and for one
step, the free-energy series has two lines and both carry the step index 0. -/
theorem freeEnergy_series_repeats_index :
    ∃ d0 d, simulationStart 1 1 (1 / 10) (1 / 10) (1 / 10) 1 0 0 sampleGenerator = some d0 ∧
      mainLoop false 1 ((1 : Nat) : Int) 1 d0 = some d ∧
      d.freeEnergy.map Prod.fst = [0, 0] := by
  obtain ⟨d0, d, h0, h1, h2⟩ := freeEnergy_series_indices 1 1 (by decide) (by decide)
    (1 / 10) (1 / 10) (1 / 10) 1 0 0 sampleGenerator 1 1
  exact ⟨d0, d, h0, h1, by rw [h2]; rfl⟩

/-! ## Sums over the periodic grid -/

theorem sum_shift_succ (g : Int → ℚ) (n : Nat) (hper : ∀ x, g (x + (n : Int)) = g x) :
    ∑ x in Finset.range n, g ((x : Int) + 1) = ∑ x in Finset.range n, g (x : Int) := by
  have h1 := Finset.sum_range_succ (fun k : Nat => g (k : Int)) n
  have h2 := Finset.sum_range_succ' (fun k : Nat => g (k : Int)) n
  have h3 : g (n : Int) = g ((0 : Nat) : Int) := by
    have := hper 0
    simpa using this
  simp only [Nat.cast_add, Nat.cast_one] at h2
  linarith

theorem sum_shift_pred (g : Int → ℚ) (n : Nat) (hper : ∀ x, g (x + (n : Int)) = g x) :
    ∑ x in Finset.range n, g ((x : Int) - 1) = ∑ x in Finset.range n, g (x : Int) := by
  have h := sum_shift_succ (fun x => g (x - 1)) n (fun x => by
    have := hper (x - 1)
    have e : x + (n : Int) - 1 = x - 1 + (n : Int) := by ring
    show g (x + (n : Int) - 1) = g (x - 1)
    rw [e]
    exact this)
  simp only [add_sub_cancel_right] at h
  exact h.symm

theorem sum_range_mul (w h : Nat) (hw : 0 < w) (F : Nat → Nat → ℚ) :
    ∑ k in Finset.range (w * h), F (k % w) (k / w)
      = ∑ y in Finset.range h, ∑ x in Finset.range w, F x y := by
  induction h with
  | zero => simp
  | succ h ih =>
    rw [Nat.mul_succ, Finset.sum_range_add, ih, Finset.sum_range_succ]
    congr 1
    apply Finset.sum_congr rfl
    intro x hx
    have hx2 : x < w := Finset.mem_range.mp hx
    rw [Nat.mul_add_mod, Nat.mod_eq_of_lt hx2, Nat.mul_add_div hw, Nat.div_eq_of_lt hx2]
    simp

theorem list_sum_map_range (f : Nat → ℚ) (n : Nat) :
    ((List.range n).map f).sum = ∑ i in Finset.range n, f i := by
  induction n with
  | zero => simp
  | succ n ih => rw [List.sum_range_succ, Finset.sum_range_succ, ih]

theorem phi_congr (L : CHLattice) (x y x1 y1 : Int) (hx : x % L.m_xRange = x1 % L.m_xRange)
    (hy : y % L.m_yRange = y1 % L.m_yRange) : phi L x y = phi L x1 y1 := by
  unfold phi
  rw [hx, hy]

theorem mu_congr (L : CHLattice) (x y x1 y1 : Int) (hx : x % L.m_xRange = x1 % L.m_xRange)
    (hy : y % L.m_yRange = y1 % L.m_yRange) : mu L x y = mu L x1 y1 := by
  have hx1 : (x + 1) % L.m_xRange = (x1 + 1) % L.m_xRange := by
    rw [Int.add_emod, hx, ← Int.add_emod]
  have hx2 : (x - 1) % L.m_xRange = (x1 - 1) % L.m_xRange := by
    rw [Int.sub_emod, hx, ← Int.sub_emod]
  have hy1 : (y + 1) % L.m_yRange = (y1 + 1) % L.m_yRange := by
    rw [Int.add_emod, hy, ← Int.add_emod]
  have hy2 : (y - 1) % L.m_yRange = (y1 - 1) % L.m_yRange := by
    rw [Int.sub_emod, hy, ← Int.sub_emod]
  unfold mu
  rw [phi_congr L x y x1 y1 hx hy, phi_congr L (x + 1) y (x1 + 1) y1 hx1 hy,
    phi_congr L (x - 1) y (x1 - 1) y1 hx2 hy, phi_congr L x (y + 1) x1 (y1 + 1) hx hy1,
    phi_congr L x (y - 1) x1 (y1 - 1) hx hy2]

theorem mu_periodic_x (L : CHLattice) (x y : Int) :
    mu L (x + ((L.m_xRange.toNat : Nat) : Int)) y = mu L x y := by
  by_cases hW : 0 ≤ L.m_xRange
  · rw [Int.toNat_of_nonneg hW]
    exact mu_congr L _ _ _ _ (Int.add_emod_self) rfl
  · have : L.m_xRange.toNat = 0 := by omega
    rw [this]
    simp

theorem mu_periodic_y (L : CHLattice) (x y : Int) :
    mu L x (y + ((L.m_yRange.toNat : Nat) : Int)) = mu L x y := by
  by_cases hH : 0 ≤ L.m_yRange
  · rw [Int.toNat_of_nonneg hH]
    exact mu_congr L _ _ _ _ rfl (Int.add_emod_self)
  · have : L.m_yRange.toNat = 0 := by omega
    rw [this]
    simp

/-- The five-point Laplacian of the chemical potential sums to zero over the periodic grid. -/
theorem laplacian_sum_zero (L : CHLattice) :
    ∑ y in Finset.range L.m_yRange.toNat, ∑ x in Finset.range L.m_xRange.toNat,
      (mu L ((x : Int) + 1) y + mu L ((x : Int) - 1) y + mu L x ((y : Int) + 1)
        + mu L x ((y : Int) - 1) - 4 * mu L x y) = 0 := by
  have hR : ∀ y : Nat, ∑ x in Finset.range L.m_xRange.toNat, mu L ((x : Int) + 1) y
      = ∑ x in Finset.range L.m_xRange.toNat, mu L x y :=
    fun y => sum_shift_succ (fun x => mu L x y) _ (fun x => mu_periodic_x L x y)
  have hL : ∀ y : Nat, ∑ x in Finset.range L.m_xRange.toNat, mu L ((x : Int) - 1) y
      = ∑ x in Finset.range L.m_xRange.toNat, mu L x y :=
    fun y => sum_shift_pred (fun x => mu L x y) _ (fun x => mu_periodic_x L x y)
  have hU : ∑ y in Finset.range L.m_yRange.toNat, ∑ x in Finset.range L.m_xRange.toNat,
      mu L x ((y : Int) + 1)
      = ∑ y in Finset.range L.m_yRange.toNat, ∑ x in Finset.range L.m_xRange.toNat, mu L x y := by
    rw [Finset.sum_comm]
    rw [Finset.sum_comm (f := fun (y : Nat) (x : Nat) => mu L x y)]
    apply Finset.sum_congr rfl
    intro x _
    exact sum_shift_succ (fun y => mu L x y) _ (fun y => mu_periodic_y L x y)
  have hD : ∑ y in Finset.range L.m_yRange.toNat, ∑ x in Finset.range L.m_xRange.toNat,
      mu L x ((y : Int) - 1)
      = ∑ y in Finset.range L.m_yRange.toNat, ∑ x in Finset.range L.m_xRange.toNat, mu L x y := by
    rw [Finset.sum_comm]
    rw [Finset.sum_comm (f := fun (y : Nat) (x : Nat) => mu L x y)]
    apply Finset.sum_congr rfl
    intro x _
    exact sum_shift_pred (fun y => mu L x y) _ (fun y => mu_periodic_y L x y)
  simp only [Finset.sum_add_distrib, Finset.sum_sub_distrib, ← Finset.mul_sum, hR, hL, hU, hD]
  ring

theorem eulerNext_sum (L : CHLattice) (dt : ℚ) :
    ∑ y in Finset.range L.m_yRange.toNat, ∑ x in Finset.range L.m_xRange.toNat,
      eulerNext L x y dt
      = ∑ y in Finset.range L.m_yRange.toNat, ∑ x in Finset.range L.m_xRange.toNat,
          phi L x y := by
  have h := laplacian_sum_zero L
  simp only [eulerNext, Finset.sum_add_distrib, ← Finset.mul_sum, h]
  simp

theorem sweepData_sum (L : CHLattice) (hL : WellFormed L) (dt : ℚ) :
    (sweepData L dt).sum
      = ∑ y in Finset.range L.m_yRange.toNat, ∑ x in Finset.range L.m_xRange.toNat,
          eulerNext L x y dt := by
  have hW : ((L.m_xRange.toNat : Nat) : Int) = L.m_xRange :=
    Int.toNat_of_nonneg (by have := hL.1; omega)
  have hH : ((L.m_yRange.toNat : Nat) : Int) = L.m_yRange :=
    Int.toNat_of_nonneg (by have := hL.2.1; omega)
  have hn : (L.m_xRange * L.m_yRange).toNat = L.m_xRange.toNat * L.m_yRange.toNat := by
    have e : L.m_xRange * L.m_yRange
        = ((L.m_xRange.toNat * L.m_yRange.toNat : Nat) : Int) := by
      push_cast
      rw [hW, hH]
    rw [e, Int.toNat_ofNat]
  unfold sweepData
  rw [list_sum_map_range, hn,
    ← sum_range_mul L.m_xRange.toNat L.m_yRange.toNat (by have := hL.1; omega)
      (fun x y => eulerNext L (x : Int) (y : Int) dt)]
  apply Finset.sum_congr rfl
  intro k _
  have e1 : (k : Int) % L.m_xRange = ((k % L.m_xRange.toNat : Nat) : Int) := by
    push_cast
    rw [hW]
  have e2 : (k : Int) / L.m_xRange = ((k / L.m_xRange.toNat : Nat) : Int) := by
    push_cast
    rw [hW]
  rw [e1, e2]

theorem data_eq_phi (L : CHLattice) (hL : WellFormed L) :
    L.m_data = (List.range (L.m_xRange.toNat * L.m_yRange.toNat)).map
      (fun (k : Nat) => phi L ((k % L.m_xRange.toNat : Nat) : Int)
        ((k / L.m_xRange.toNat : Nat) : Int)) := by
  have hW : ((L.m_xRange.toNat : Nat) : Int) = L.m_xRange :=
    Int.toNat_of_nonneg (by have := hL.1; omega)
  have hH : ((L.m_yRange.toNat : Nat) : Int) = L.m_yRange :=
    Int.toNat_of_nonneg (by have := hL.2.1; omega)
  have hlen : L.m_data.length = L.m_xRange.toNat * L.m_yRange.toNat := by
    have e : ((L.m_xRange.toNat * L.m_yRange.toNat : Nat) : Int) = (L.m_data.length : Int) := by
      push_cast
      rw [hW, hH, hL.2.2]
    omega
  apply List.ext_getElem?
  intro k
  by_cases hk : k < L.m_data.length
  · have hk2 : k < L.m_xRange.toNat * L.m_yRange.toNat := by omega
    have hkI : (k : Int) < L.m_xRange * L.m_yRange := by
      rw [← hL.2.2]
      omega
    obtain ⟨h1, h2, h3, h4, h5⟩ := index_surjective L.m_xRange L.m_yRange (k : Int) hL.1
      (by omega) hkI
    have e1 : ((k % L.m_xRange.toNat : Nat) : Int) = (k : Int) % L.m_xRange := by
      push_cast
      rw [hW]
    have e2 : ((k / L.m_xRange.toNat : Nat) : Int) = (k : Int) / L.m_xRange := by
      push_cast
      rw [hW]
    rw [List.getElem?_map, List.getElem?_range hk2, Option.map_some', e1, e2]
    unfold phi
    rw [Int.emod_emod_of_dvd _ (dvd_refl _), Int.emod_eq_of_lt h3 h4, h5, Int.toNat_ofNat,
      List.getD_eq_getElem?_getD, List.getElem?_eq_getElem hk]
    rfl
  · rw [List.getElem?_eq_none (by omega)]
    symm
    apply List.getElem?_eq_none
    simp
    omega

theorem data_sum (L : CHLattice) (hL : WellFormed L) :
    L.m_data.sum
      = ∑ y in Finset.range L.m_yRange.toNat, ∑ x in Finset.range L.m_xRange.toNat,
          phi L x y := by
  conv_lhs => rw [data_eq_phi L hL]
  rw [list_sum_map_range,
    sum_range_mul L.m_xRange.toNat L.m_yRange.toNat (by have := hL.1; omega)
      (fun x y => phi L (x : Int) (y : Int))]

/-- C17. In exact arithmetic, for distinct lattice objects `cur`, `dst` of identical dimensions
`W, H ≥ 1`, `cur` having spatial step `dx ≠ 0` (where the divisions by `dx²` are defined), and
every `dt`, `update(cur, dst, dt)` returns and the sum of all site values of `dst`
afterwards equals the sum of all site values of `cur`; the five-point Laplacian of the chemical
potential (the values `chemicalPotential` returns) sums to zero over the periodic grid. -/
theorem update_conserves_sum (st : Store) (cur dst : Ref) (dt : ℚ) (hne : cur ≠ dst)
    (hc : WellFormed (st cur)) (_hdx : (st cur).m_dx ≠ 0) (hd : WellFormed (st dst))
    (hW : (st dst).m_xRange = (st cur).m_xRange) (hH : (st dst).m_yRange = (st cur).m_yRange) :
    (∃ st1, update cur dst dt st = some st1 ∧ (st1 dst).m_data.sum = (st cur).m_data.sum) ∧
    (∀ x y : Int, -1 ≤ x → x ≤ (st cur).m_xRange → -1 ≤ y → y ≤ (st cur).m_yRange →
      (st cur).chemicalPotential x y = some (mu (st cur) x y)) ∧
    ∑ y in Finset.range (st cur).m_yRange.toNat, ∑ x in Finset.range (st cur).m_xRange.toNat,
      (mu (st cur) ((x : Int) + 1) y + mu (st cur) ((x : Int) - 1) y
        + mu (st cur) x ((y : Int) + 1) + mu (st cur) x ((y : Int) - 1)
        - 4 * mu (st cur) x y) = 0 := by
  refine ⟨⟨_, update_eq st cur dst dt hne hc hd hW hH, ?_⟩,
    fun x y hx _ hy _ => chemicalPotential_eq_mu _ hc x y hx hy, laplacian_sum_zero (st cur)⟩
  rw [Function.update_same, withData_data, sweepData_sum _ hc dt, eulerNext_sum, data_sum _ hc]

theorem update_conserves_sum_witness :
    (∃ st1, update 0 1 (1 / 2) coarseStore = some st1 ∧
      (st1 1).m_data.sum = (coarseStore 0).m_data.sum) ∧
    (∀ x y : Int, -1 ≤ x → x ≤ (coarseStore 0).m_xRange → -1 ≤ y →
      y ≤ (coarseStore 0).m_yRange →
      (coarseStore 0).chemicalPotential x y = some (mu (coarseStore 0) x y)) ∧
    ∑ y in Finset.range (coarseStore 0).m_yRange.toNat,
      ∑ x in Finset.range (coarseStore 0).m_xRange.toNat,
        (mu (coarseStore 0) ((x : Int) + 1) y + mu (coarseStore 0) ((x : Int) - 1) y
          + mu (coarseStore 0) x ((y : Int) + 1) + mu (coarseStore 0) x ((y : Int) - 1)
          - 4 * mu (coarseStore 0) x y) = 0 :=
  update_conserves_sum coarseStore 0 1 (1 / 2) (by decide) (by decide) (by decide) (by decide)
    rfl rfl

end CahnHilliard
